import Mathlib

/-!
# Verification of the GrafosNASA route/flow engines

Shallow embedding of the repository's core components and proofs of the
specification's claims about them.

Conventions of the embedding:
* Python `float` values are modelled as rationals (`ℚ`); `float('inf')` is
  modelled by `⊤` in `WithTop ℚ`.
* Star identifiers (Python `int`) are modelled as `ℕ`.
* Python dictionaries keyed by node that the code initialises for every known
  node are modelled as total functions with the dictionary's default outside
  the key set (a lookup of a missing key would raise `KeyError` in Python;
  the theorems that depend on it carry a well-formedness hypothesis that all
  edge endpoints are known nodes).
* `math.hypot` returns an irrational square root in general, so the graph
  builders are parameterised by the Euclidean-distance function
  `euclid : Coord → Coord → ℚ`; every statement about the builders holds for
  an arbitrary such function.
-/

/-- The cost domain of the shortest-path engines: a Python `float` distance,
with `⊤` standing for `float('inf')`. -/
abbrev Cost := WithTop ℚ

/-- A directed weighted edge `(u, v, w)`, mirroring
`Edge = Tuple[int, int, float]` in `bellman_algor.py` / `floyd_algor.py`. -/
abbrev BFEdge := ℕ × ℕ × ℚ

/-- `tuple(sorted((u, v)))`: the normalised unordered pair used for blocked
paths throughout the repository. -/
def normPair (u v : ℕ) : ℕ × ℕ := if u ≤ v then (u, v) else (v, u)

namespace BellmanFord

/-- The two failure modes of `BellmanFord.run`: `ValueError` when the origin
is unknown, `NegativeCycleError` when a reachable negative cycle remains
relaxable after `|V| - 1` passes. -/
inductive BFError where
  | valueError
  | negativeCycle
deriving DecidableEq, Repr

/-- The mutable state of `BellmanFord.run`: the `dist` and `prev`
dictionaries (total functions; unknown keys carry the initial values). -/
structure BFState where
  dist : ℕ → Cost
  prev : ℕ → Option ℕ

/-- One relaxation attempt for a single edge inside a pass, together with the
`changed` flag of the pass:
`if dist[u] != inf and dist[u] + w < dist[v]: dist[v] = dist[u] + w; prev[v] = u; changed = True`. -/
def relaxEdge (s : BFState × Bool) (e : BFEdge) : BFState × Bool :=
  let (st, changed) := s
  let (u, v, w) := e
  if st.dist u ≠ ⊤ ∧ st.dist u + (w : Cost) < st.dist v then
    (⟨Function.update st.dist v (st.dist u + (w : Cost)),
      Function.update st.prev v (some u)⟩, true)
  else (st, changed)

/-- One full pass over the edge list (`changed` starts out `False`). -/
def relaxPass (edges : List BFEdge) (st : BFState) : BFState × Bool :=
  edges.foldl relaxEdge (st, false)

/-- The `for _ in range(len(self.nodes) - 1)` loop with its early exit
(`if not changed: break`). The first argument is the number of remaining
passes. -/
def bfLoop (edges : List BFEdge) : ℕ → BFState → BFState
  | 0, st => st
  | k + 1, st =>
    let (st', changed) := relaxPass edges st
    if changed then bfLoop edges k st' else st'

/-- The final negative-cycle detection pass:
`if dist[u] != float('inf') and dist[u] + w < dist[v]: raise NegativeCycleError`. -/
def negCheck (edges : List BFEdge) (st : BFState) : Bool :=
  edges.any fun e => decide (st.dist e.1 ≠ ⊤ ∧ st.dist e.1 + (e.2.2 : Cost) < st.dist e.2.1)

/-- `BellmanFord.run(source)` from `bellman_algor.py`: distances start at
`inf` (`0` at the source), `|V| - 1` relaxation passes with early exit, then
the negative-cycle check. -/
def run (nodes : List ℕ) (edges : List BFEdge) (source : ℕ) :
    Except BFError ((ℕ → Cost) × (ℕ → Option ℕ)) :=
  if source ∈ nodes then
    let st0 : BFState := ⟨fun n => if n = source then 0 else ⊤, fun _ => none⟩
    let st := bfLoop edges (nodes.length - 1) st0
    if negCheck edges st then .error .negativeCycle else .ok (st.dist, st.prev)
  else .error .valueError

end BellmanFord

/-- **C1.** If `BellmanFord.run` returns normally (no negative-cycle failure,
no unknown-origin failure), then for every edge `(u, v, w)` of the input the
returned distance map satisfies `dist[u] + w ≥ dist[v]`. -/
theorem C1_bellman_ford_relaxed (nodes : List ℕ) (edges : List BFEdge) (source : ℕ)
    (dist : ℕ → Cost) (prev : ℕ → Option ℕ)
    (h : BellmanFord.run nodes edges source = .ok (dist, prev))
    (u v : ℕ) (w : ℚ) (hmem : (u, v, w) ∈ edges) :
    dist v ≤ dist u + (w : Cost) := by
  unfold BellmanFord.run at h
  split at h
  · set st := BellmanFord.bfLoop edges (nodes.length - 1)
      ⟨fun n => if n = source then 0 else ⊤, fun _ => none⟩ with hst
    by_cases hneg : BellmanFord.negCheck edges st
    · simp [hneg] at h
    · simp [hneg] at h
      obtain ⟨hdist, _⟩ := h
      have hthis : ¬ (st.dist u ≠ ⊤ ∧ st.dist u + (w : Cost) < st.dist v) := by
        intro hcon
        apply hneg
        unfold BellmanFord.negCheck
        rw [List.any_eq_true]
        exact ⟨(u, v, w), hmem, by simpa using hcon⟩
      rw [← hdist]
      by_cases htop : st.dist u = ⊤
      · rw [htop, top_add]
        exact le_top
      · exact not_lt.mp (fun hc => hthis ⟨htop, hc⟩)
  · exact absurd h (by simp)

/-- Witness for C1 at a concrete graph: `run [0, 1] [(0,1,2), (1,0,2)] 0`
returns normally and the inequality holds on the edge `(0, 1, 2)`. -/
theorem C1_witness :
    ∃ (d : ℕ → Cost) (p : ℕ → Option ℕ),
      BellmanFord.run [0, 1] [(0, 1, (2 : ℚ)), (1, 0, 2)] 0 = .ok (d, p) ∧
      d 1 ≤ d 0 + ((2 : ℚ) : Cost) := by
  have h : BellmanFord.run [0, 1] [(0, 1, (2 : ℚ)), (1, 0, 2)] 0 = .ok
      ((BellmanFord.bfLoop [(0, 1, (2 : ℚ)), (1, 0, 2)] 1
          ⟨fun n => if n = 0 then 0 else ⊤, fun _ => none⟩).dist,
       (BellmanFord.bfLoop [(0, 1, (2 : ℚ)), (1, 0, 2)] 1
          ⟨fun n => if n = 0 then 0 else ⊤, fun _ => none⟩).prev) := by
    with_unfolding_all rfl
  exact ⟨_, _, h, C1_bellman_ford_relaxed _ _ _ _ _ h 0 1 2 (by simp)⟩

/-! ## The carrier (`Burro`, `src/core/burro.py`) and hypergiant effects
(`src/core/hypergiants.py`).  Energies, food stock and ages are Python
floats, modelled as `ℚ`. -/

/-- Health tiers of the carrier (`class Health` in `src/core/burro.py`). -/
inductive Health where
  | excelente
  | buena
  | regular
  | mala
  | moribundo
  | muerto
deriving DecidableEq, Repr

/-- The carrier state (`@dataclass class Burro`). -/
structure Burro where
  energia : ℚ
  salud : Health
  pasto_kg : ℚ
  edad_inicial : ℚ
  edad_actual : ℚ
  edad_muerte : ℚ
  vida_restante : ℚ
deriving DecidableEq, Repr

namespace Burro

/-- The `esta_muerto` property:
`vida_restante <= 0 or edad_actual >= edad_muerte or salud == Muerto`. -/
def esta_muerto (b : Burro) : Prop :=
  b.vida_restante ≤ 0 ∨ b.edad_actual ≥ b.edad_muerte ∨ b.salud = Health.muerto

instance (b : Burro) : Decidable b.esta_muerto :=
  inferInstanceAs (Decidable (_ ∨ _ ∨ _))

/-- `Burro.viajar`: travel `distancia_ly` light years (clamped at `0`),
consuming lifespan and ageing; crossing either death threshold makes the
carrier `Muerto`. -/
def viajar (b : Burro) (distancia_ly : ℚ) : Burro :=
  if b.esta_muerto then b
  else
    let d := max 0 distancia_ly
    let b' := { b with vida_restante := b.vida_restante - d,
                       edad_actual := b.edad_actual + d }
    if b'.vida_restante ≤ 0 ∨ b'.edad_actual ≥ b'.edad_muerte then
      { b' with salud := Health.muerto }
    else b'

/-- `Burro.hipergigante_boost`: +50 % of the current energy (capped at 100)
and doubled food stock; a no-op when dead.  The Python literal `0.5` is the
rational `1/2`. -/
def hipergigante_boost (b : Burro) : Burro :=
  if b.esta_muerto then b
  else { b with energia := min 100 (b.energia + (1 / 2 : ℚ) * b.energia),
                pasto_kg := b.pasto_kg * 2 }

end Burro

/-- `apply_hypergiant_effects` from `src/core/hypergiants.py`: the same
energy/food update, applied unconditionally (no dead-check). -/
def apply_hypergiant_effects (b : Burro) : Burro :=
  { b with energia := min 100 (b.energia + (1 / 2 : ℚ) * b.energia),
           pasto_kg := b.pasto_kg * 2 }

/-- A dead carrier (`salud = Muerto`) with energy 40 and food stock 3:
`apply_hypergiant_effects` still boosts it. -/
def deadBurro : Burro :=
  ⟨40, Health.muerto, 3, 0, 0, 10, 5⟩

/-- **C6, counterexample.** The claim states that the hypergiant boost
operation "for a Dead carrier ... changes nothing", citing both
`Burro.hipergigante_boost` and `apply_hypergiant_effects`.  The free
function `apply_hypergiant_effects` has no dead-guard: on a dead carrier
with energy 40 and food stock 3 it produces energy 60 and food stock 6. -/
theorem C6_counterexample :
    deadBurro.esta_muerto ∧
    (apply_hypergiant_effects deadBurro).energia = 60 ∧
    (apply_hypergiant_effects deadBurro).pasto_kg = 6 ∧
    apply_hypergiant_effects deadBurro ≠ deadBurro := by
  refine ⟨by right; right; rfl, ?_, ?_, ?_⟩
  · with_unfolding_all rfl
  · with_unfolding_all rfl
  · intro hcon
    have h1 : (apply_hypergiant_effects deadBurro).energia = 60 := by
      with_unfolding_all rfl
    rw [hcon] at h1
    have h2 : deadBurro.energia = 40 := rfl
    rw [h1] at h2
    exact absurd h2 (by norm_num)

/-- **C6, amended.** For a carrier that is not dead, both
`Burro.hipergigante_boost` and `apply_hypergiant_effects` set the energy to
`min 100 (energia + 0.5 * energia)` and double the food stock (all other
fields unchanged); a dead carrier is left unchanged by
`Burro.hipergigante_boost`, while `apply_hypergiant_effects` applies the
same update unconditionally, dead or not. -/
theorem C6_hypergiant_boost (b : Burro) :
    (¬ b.esta_muerto →
      b.hipergigante_boost =
        { b with energia := min 100 (b.energia + (1 / 2 : ℚ) * b.energia),
                 pasto_kg := b.pasto_kg * 2 }) ∧
    (b.esta_muerto → b.hipergigante_boost = b) ∧
    apply_hypergiant_effects b =
      { b with energia := min 100 (b.energia + (1 / 2 : ℚ) * b.energia),
               pasto_kg := b.pasto_kg * 2 } := by
  refine ⟨fun hnd => ?_, fun hd => ?_, rfl⟩
  · unfold Burro.hipergigante_boost
    rw [if_neg hnd]
  · unfold Burro.hipergigante_boost
    rw [if_pos hd]

/-- Witness for C6 (amended) at a live carrier with energy 40 and food 3:
the boost yields energy 60 = min 100 (40 + 20) and food 6, and at the dead
carrier the method is the identity. -/
theorem C6_witness :
    (¬ (Burro.mk 40 Health.buena 3 0 0 10 5).esta_muerto) ∧
    (Burro.mk 40 Health.buena 3 0 0 10 5).hipergigante_boost =
      { Burro.mk 40 Health.buena 3 0 0 10 5 with energia := 60, pasto_kg := 6 } ∧
    deadBurro.hipergigante_boost = deadBurro := by
  have hlive : ¬ (Burro.mk 40 Health.buena 3 0 0 10 5).esta_muerto := by
    intro hcon
    rcases hcon with h | h | h
    · exact absurd h (by norm_num [Burro.vida_restante])
    · exact absurd h (by norm_num [Burro.edad_actual, Burro.edad_muerte])
    · exact absurd h (by simp [Burro.salud])
  refine ⟨hlive, ?_, ?_⟩
  · exact ((C6_hypergiant_boost (Burro.mk 40 Health.buena 3 0 0 10 5)).1 hlive).trans
      (by with_unfolding_all rfl)
  · exact (C6_hypergiant_boost deadBurro).2.1 (by right; right; rfl)

/-! ## The star/constellation dataset (`JsonLoader`) and the graph builders.

The JSON data model: a loader holds constellations, each with a `starts`
list of stars; a star has an integer `id`, coordinates, an optional galaxy
id, a hypergiant flag, a label, and a `linkedTo` list of links.  A link
carries the target `starId` and the optional `weight` / `distance` /
`capacity` fields read by the three builders (`link.get(...)` on a missing
key yields the default, modelled by `Option`). -/

/-- A 2-D coordinate (`star["coordenates"]`). -/
structure Coord where
  x : ℚ
  y : ℚ
deriving DecidableEq, Repr

/-- A declared link of a star (`star["linkedTo"][i]`). -/
structure Link where
  starId : ℕ
  weight : Option ℚ
  distance : Option ℚ
  capacity : Option ℚ
deriving DecidableEq, Repr

/-- A star of the dataset. -/
structure StarData where
  id : ℕ
  label : String
  coord : Coord
  linkedTo : List Link
  hypergiant : Bool
  galaxyId : Option ℕ
deriving DecidableEq, Repr

/-- A constellation (`{"name": ..., "starts": [...]}`; only `starts` is read
by the core). -/
structure Constellation where
  starts : List StarData
deriving DecidableEq, Repr

/-- The loaded dataset (`loader.data["constellations"]`, which is also what
`get_constellations()` returns). -/
structure Loader where
  constellations : List Constellation
deriving DecidableEq, Repr

/-- All stars of the dataset in traversal order. -/
def allStars (L : Loader) : List StarData :=
  (L.constellations.map Constellation.starts).flatten

/-- `JsonLoader.find_star_by_id` / the planner's `_star_index`: a dict built
by `index[id] = star` over the full traversal, so a duplicated id resolves
to the *last* star carrying it; lookup of an absent id gives `None`. -/
def find_star_by_id (L : Loader) (sid : ℕ) : Option StarData :=
  (allStars L).reverse.find? (fun s => s.id = sid)

/-- The rational `(x_a - x_b)^2 + (y_a - y_b)^2`: the square of the
Euclidean distance between two coordinates (the exact, rational-valued
stand-in used to reason about `math.hypot` / `math.sqrt` outputs). -/
def euclidSqQ (a b : Coord) : ℚ := (a.x - b.x) ^ 2 + (a.y - b.y) ^ 2

/-- Insertion of one element into an ascending sorted list. -/
def insertSorted (x : ℕ) : List ℕ → List ℕ
  | [] => [x]
  | y :: t => if x ≤ y then x :: y :: t else y :: insertSorted x t

/-- Python's `sorted(...)` on a list of ints (insertion sort; ascending). -/
def pySorted (l : List ℕ) : List ℕ := l.foldr insertSorted []

/-- First-occurrence deduplication, as done by iterating a Python `set`
accumulated in insertion order (membership is all the claims use). -/
def pyDedup (l : List ℕ) : List ℕ := go l [] where
  go : List ℕ → List ℕ → List ℕ
    | [], _ => []
    | x :: xs, seen => if x ∈ seen then go xs seen else x :: go xs (x :: seen)

/-- `sorted(set(...))`: the sorted duplicate-free node list returned by the
Bellman-Ford and flow builders. -/
def pySortedSet (l : List ℕ) : List ℕ := pySorted (pyDedup l)

namespace BellmanFord

/-- The contribution of one `link` of the star `u` (coordinates `c1`) in
`build_graph_from_loader` of `bellman_algor.py`: skip when the target star
is unknown or the normalised pair is blocked, otherwise two directed edges
weighted by the declared `weight` (Euclidean fallback) plus the target
node. -/
def linkContribution (euclid : Coord → Coord → ℚ) (L : Loader)
    (blocked : List (ℕ × ℕ)) (u : ℕ) (c1 : Coord) (link : Link) :
    List BFEdge × List ℕ :=
  match find_star_by_id L link.starId with
  | none => ([], [])
  | some target =>
    let v := link.starId
    if normPair u v ∈ blocked then ([], [])
    else
      let w := link.weight.getD (euclid c1 target.coord)
      ([(u, v, w), (v, u, w)], [v])

/-- The edges and extra nodes contributed by one star. -/
def starContribution (euclid : Coord → Coord → ℚ) (L : Loader)
    (blocked : List (ℕ × ℕ)) (star : StarData) : List BFEdge × List ℕ :=
  let parts := star.linkedTo.map (linkContribution euclid L blocked star.id star.coord)
  ((parts.map Prod.fst).flatten, star.id :: (parts.map Prod.snd).flatten)

/-- `build_graph_from_loader(loader, blocked_paths)` of `bellman_algor.py`:
bidirectional edges from every declared link whose target exists and whose
normalised pair is not blocked; nodes are the sorted set of star ids and
accepted targets. -/
def build_graph_from_loader (euclid : Coord → Coord → ℚ) (L : Loader)
    (blocked : List (ℕ × ℕ)) : List ℕ × List BFEdge :=
  let parts := (allStars L).map (starContribution euclid L blocked)
  (pySortedSet ((parts.map Prod.snd).flatten), (parts.map Prod.fst).flatten)

end BellmanFord

namespace GraphUtils

/-- The builder state of `core/graph_utils.build_graph_from_loader`:
node set (insertion order), edge list, and the `seen_edges` key set. -/
structure CoreBuildState where
  nodes : List ℕ
  edges : List BFEdge
  seen : List (ℕ × ℕ)
deriving Repr

/-- Python `set.add` on a list carried in insertion order. -/
def setAddNat (l : List ℕ) (x : ℕ) : List ℕ := if x ∈ l then l else l ++ [x]

/-- Processing one link of star `sid` in `graph_utils.build_graph_from_loader`:
skip when either orientation of the pair is blocked; weight is the declared
`distance` with default `1.0`; both directions are appended once per
unordered pair (`seen_edges`). -/
def coreLinkStep (blocked : List (ℕ × ℕ)) (sid : ℕ) (st : CoreBuildState)
    (link : Link) : CoreBuildState :=
  let t := link.starId
  if (sid, t) ∈ blocked ∨ (t, sid) ∈ blocked then st
  else
    let d := link.distance.getD 1
    let key := normPair sid t
    if key ∈ st.seen then st
    else { st with edges := st.edges ++ [(sid, t, d), (t, sid, d)],
                   seen := st.seen ++ [key] }

/-- Processing one star: record its id, then its links. -/
def coreStarStep (blocked : List (ℕ × ℕ)) (st : CoreBuildState)
    (star : StarData) : CoreBuildState :=
  star.linkedTo.foldl (coreLinkStep blocked star.id)
    { st with nodes := setAddNat st.nodes star.id }

/-- `build_graph_from_loader(loader, blocked_paths)` of
`src/core/graph_utils.py` (used by the route planner): bidirectional,
deduplicated edges with the declared `distance` (default `1.0`) as weight;
no existence check on link targets. -/
def build_graph_from_loader (L : Loader) (blocked : List (ℕ × ℕ)) :
    List ℕ × List BFEdge :=
  let st := (allStars L).foldl (coreStarStep blocked) ⟨[], [], []⟩
  (st.nodes, st.edges)

end GraphUtils

namespace MaxFlow

/-- Processing the links of star `u` in
`MaxFlow.build_flow_graph_from_loader` (`ford_algor.py`): skip unknown
targets and blocked pairs, reject a negative capacity with
`InvalidPathError`, and append the directed edge(s) (both directions when
`undirected`).  The capacity is the link's `capacity` field with default
`default_capacity`. -/
def flowLinks (L : Loader) (blocked : List (ℕ × ℕ)) (defaultCap : ℚ)
    (undirected : Bool) (u : ℕ) : List Link → Except String (List BFEdge × List ℕ)
  | [] => .ok ([], [])
  | link :: rest =>
    match find_star_by_id L link.starId with
    | none => flowLinks L blocked defaultCap undirected u rest
    | some _ =>
      let v := link.starId
      if normPair u v ∈ blocked then flowLinks L blocked defaultCap undirected u rest
      else
        let cap := link.capacity.getD defaultCap
        if cap < 0 then .error "Capacidad negativa en link"
        else
          match flowLinks L blocked defaultCap undirected u rest with
          | .error msg => .error msg
          | .ok (es, ns) =>
            .ok (((u, v, cap) :: if undirected then [(v, u, cap)] else []) ++ es, v :: ns)

/-- Processing a list of stars in `build_flow_graph_from_loader`. -/
def flowStars (L : Loader) (blocked : List (ℕ × ℕ)) (defaultCap : ℚ)
    (undirected : Bool) : List StarData → Except String (List BFEdge × List ℕ)
  | [] => .ok ([], [])
  | s :: rest =>
    match flowLinks L blocked defaultCap undirected s.id s.linkedTo with
    | .error msg => .error msg
    | .ok (es1, ns1) =>
      match flowStars L blocked defaultCap undirected rest with
      | .error msg => .error msg
      | .ok (es2, ns2) => .ok (es1 ++ es2, s.id :: (ns1 ++ ns2))

/-- `MaxFlow.build_flow_graph_from_loader` of `ford_algor.py` with the
`capacity` key: directed capacity edges from the declared links (both
directions when `undirected`), blocked pairs skipped, negative capacities
rejected; nodes are the sorted set of ids. -/
def build_flow_graph_from_loader (L : Loader) (blocked : List (ℕ × ℕ))
    (defaultCap : ℚ) (undirected : Bool) :
    Except String (List ℕ × List BFEdge) :=
  match flowStars L blocked defaultCap undirected (allStars L) with
  | .error msg => .error msg
  | .ok (es, ns) => .ok (pySortedSet ns, es)

end MaxFlow

/-! ### Generic fold lemmas used for the builder invariants. -/

/-- A property preserved by every step of a `foldl` (steps taken from the
list) holds of the result. -/
theorem foldlPreserveMem {α σ : Type _} (f : σ → α → σ) (P : σ → Prop) :
    ∀ (l : List α) (s : σ), (∀ s' a, a ∈ l → P s' → P (f s' a)) → P s →
      P (l.foldl f s)
  | [], _, _, hs => hs
  | a :: l, s, h, hs =>
    foldlPreserveMem f P l (f s a) (fun s' a' ha' => h s' a' (List.mem_cons_of_mem _ ha'))
      (h s a (List.mem_cons_self _ _) hs)

/-- A property established by the step of some member of the list and
preserved by all later steps holds of the result of the `foldl`. -/
theorem foldlReachMem {α σ : Type _} (f : σ → α → σ) (P : σ → Prop) :
    ∀ (l : List α) (s : σ) (a : α), a ∈ l →
      (∀ s' a', a' ∈ l → P s' → P (f s' a')) →
      (∀ s', P (f s' a)) → P (l.foldl f s)
  | [], _, _, ha, _, _ => absurd ha (List.not_mem_nil _)
  | b :: l, s, a, ha, hpres, hest => by
    rcases List.mem_cons.mp ha with rfl | ha'
    · exact foldlPreserveMem f P l (f s a)
        (fun s' a' ha' => hpres s' a' (List.mem_cons_of_mem _ ha')) (hest s)
    · exact foldlReachMem f P l (f s b) a ha'
        (fun s' a' ha'' => hpres s' a' (List.mem_cons_of_mem _ ha'')) hest

/-- `normPair` is symmetric. -/
theorem normPair_comm (u v : ℕ) : normPair u v = normPair v u := by
  unfold normPair
  rcases le_total u v with h | h
  · rcases eq_or_lt_of_le h with rfl | hlt
    · simp
    · rw [if_pos h, if_neg (not_le.mpr hlt)]
  · rcases eq_or_lt_of_le h with rfl | hlt
    · simp
    · rw [if_pos h, if_neg (not_le.mpr hlt)]

namespace BellmanFord

/-- Membership in the edge contribution of a single link. -/
theorem linkContribution_mem (euclid : Coord → Coord → ℚ) (L : Loader)
    (blocked : List (ℕ × ℕ)) (u : ℕ) (c1 : Coord) (link : Link) (e : BFEdge) :
    e ∈ (linkContribution euclid L blocked u c1 link).1 ↔
      ∃ tgt, find_star_by_id L link.starId = some tgt ∧
        normPair u link.starId ∉ blocked ∧
        (e = (u, link.starId, link.weight.getD (euclid c1 tgt.coord)) ∨
         e = (link.starId, u, link.weight.getD (euclid c1 tgt.coord))) := by
  unfold linkContribution
  cases hf : find_star_by_id L link.starId with
  | none => simp
  | some tgt =>
    by_cases hb : normPair u link.starId ∈ blocked
    · simp [hb]
    · simp [hb, List.mem_cons]

/-- Membership in the full Bellman-Ford builder edge list. -/
theorem build_mem (euclid : Coord → Coord → ℚ) (L : Loader)
    (blocked : List (ℕ × ℕ)) (e : BFEdge) :
    e ∈ (build_graph_from_loader euclid L blocked).2 ↔
      ∃ s ∈ allStars L, ∃ link ∈ s.linkedTo,
        e ∈ (linkContribution euclid L blocked s.id s.coord link).1 := by
  unfold build_graph_from_loader starContribution
  simp [List.mem_flatten, List.map_map, Function.comp]

end BellmanFord

namespace GraphUtils

/-- Edges already emitted stay in the list after a link step. -/
theorem coreLinkStep_edges_mono (blocked : List (ℕ × ℕ)) (sid : ℕ)
    (st : CoreBuildState) (link : Link) (e : BFEdge) (he : e ∈ st.edges) :
    e ∈ (coreLinkStep blocked sid st link).edges := by
  unfold coreLinkStep
  dsimp only
  split
  · exact he
  · split
    · exact he
    · exact List.mem_append_left _ he

/-- Seen keys stay seen after a link step. -/
theorem coreLinkStep_seen_mono (blocked : List (ℕ × ℕ)) (sid : ℕ)
    (st : CoreBuildState) (link : Link) (p : ℕ × ℕ) (hp : p ∈ st.seen) :
    p ∈ (coreLinkStep blocked sid st link).seen := by
  unfold coreLinkStep
  dsimp only
  split
  · exact hp
  · split
    · exact hp
    · exact List.mem_append_left _ hp

/-- The `seen_edges` invariant: every seen key has both directed edges in
the edge list, with a common weight. -/
def SeenInv (st : CoreBuildState) : Prop :=
  ∀ p ∈ st.seen, ∃ w, (p.1, p.2, w) ∈ st.edges ∧ (p.2, p.1, w) ∈ st.edges

/-- The per-edge invariant: every emitted edge comes from a link of a star
of the given list, is not blocked (in the normalised sense), and carries the
link's declared `distance` with default `1`. -/
def EdgesInv (L : Loader) (blocked : List (ℕ × ℕ)) (st : CoreBuildState) : Prop :=
  ∀ u v w, (u, v, w) ∈ st.edges →
    normPair u v ∉ blocked ∧
    ∃ s ∈ allStars L, ∃ link ∈ s.linkedTo, w = link.distance.getD 1 ∧
      ((u, v) = (s.id, link.starId) ∨ (u, v) = (link.starId, s.id))

theorem coreLinkStep_seenInv (blocked : List (ℕ × ℕ)) (sid : ℕ)
    (st : CoreBuildState) (link : Link) (h : SeenInv st) :
    SeenInv (coreLinkStep blocked sid st link) := by
  unfold coreLinkStep
  dsimp only
  split
  · exact h
  · split
    · exact h
    · intro p hp
      rcases List.mem_append.mp hp with hp' | hp'
      · obtain ⟨w, h1, h2⟩ := h p hp'
        exact ⟨w, List.mem_append_left _ h1, List.mem_append_left _ h2⟩
      · have hpk : p = normPair sid link.starId := by simpa using hp'
        subst hpk
        refine ⟨link.distance.getD 1, ?_, ?_⟩ <;>
          · apply List.mem_append_right
            unfold normPair
            split <;> simp

theorem coreLinkStep_edgesInv (L : Loader) (blocked : List (ℕ × ℕ))
    (s : StarData) (hs : s ∈ allStars L) (st : CoreBuildState) (link : Link)
    (hlink : link ∈ s.linkedTo) (h : EdgesInv L blocked st) :
    EdgesInv L blocked (coreLinkStep blocked s.id st link) := by
  unfold coreLinkStep
  dsimp only
  split
  · exact h
  · split
    · exact h
    · rename_i hnb _
      push_neg at hnb
      intro u v w hmem
      rcases List.mem_append.mp hmem with hm | hm
      · exact h u v w hm
      · simp only [List.mem_cons, List.mem_singleton, Prod.mk.injEq,
          List.not_mem_nil, or_false] at hm
        rcases hm with ⟨rfl, rfl, rfl⟩ | ⟨rfl, rfl, rfl⟩
        · refine ⟨?_, s, hs, link, hlink, rfl, Or.inl rfl⟩
          intro hb
          unfold normPair at hb
          by_cases hle : s.id ≤ link.starId
          · rw [if_pos hle] at hb
            exact hnb.1 hb
          · rw [if_neg hle] at hb
            exact hnb.2 hb
        · refine ⟨?_, s, hs, link, hlink, rfl, Or.inr rfl⟩
          intro hb
          unfold normPair at hb
          by_cases hle : link.starId ≤ s.id
          · rw [if_pos hle] at hb
            exact hnb.2 hb
          · rw [if_neg hle] at hb
            exact hnb.1 hb

theorem coreStarStep_seen_mono (blocked : List (ℕ × ℕ)) (st : CoreBuildState)
    (star : StarData) (p : ℕ × ℕ) (hp : p ∈ st.seen) :
    p ∈ (coreStarStep blocked st star).seen := by
  unfold coreStarStep
  exact foldlPreserveMem (coreLinkStep blocked star.id) (fun st' => p ∈ st'.seen)
    star.linkedTo { st with nodes := setAddNat st.nodes star.id }
    (fun s' a _ h => coreLinkStep_seen_mono blocked star.id s' a p h) hp

theorem coreStarStep_seenInv (blocked : List (ℕ × ℕ)) (st : CoreBuildState)
    (star : StarData) (h : SeenInv st) : SeenInv (coreStarStep blocked st star) := by
  unfold coreStarStep
  exact foldlPreserveMem (coreLinkStep blocked star.id) SeenInv
    star.linkedTo { st with nodes := setAddNat st.nodes star.id }
    (fun s' a _ h' => coreLinkStep_seenInv blocked star.id s' a h') h

theorem coreStarStep_edgesInv (L : Loader) (blocked : List (ℕ × ℕ))
    (st : CoreBuildState) (star : StarData) (hstar : star ∈ allStars L)
    (h : EdgesInv L blocked st) : EdgesInv L blocked (coreStarStep blocked st star) := by
  unfold coreStarStep
  exact foldlPreserveMem (coreLinkStep blocked star.id) (EdgesInv L blocked)
    star.linkedTo { st with nodes := setAddNat st.nodes star.id }
    (fun s' a ha h' => coreLinkStep_edgesInv L blocked star hstar s' a ha h') h

/-- The final state of the `graph_utils` build. -/
def coreFinal (L : Loader) (blocked : List (ℕ × ℕ)) : CoreBuildState :=
  (allStars L).foldl (coreStarStep blocked) ⟨[], [], []⟩

theorem coreFinal_seenInv (L : Loader) (blocked : List (ℕ × ℕ)) :
    SeenInv (coreFinal L blocked) := by
  unfold coreFinal
  exact foldlPreserveMem (coreStarStep blocked) SeenInv (allStars L) ⟨[], [], []⟩
    (fun s' a _ h => coreStarStep_seenInv blocked s' a h)
    (fun p hp => absurd hp (List.not_mem_nil _))

theorem coreFinal_edgesInv (L : Loader) (blocked : List (ℕ × ℕ)) :
    EdgesInv L blocked (coreFinal L blocked) := by
  unfold coreFinal
  exact foldlPreserveMem (coreStarStep blocked) (EdgesInv L blocked) (allStars L) ⟨[], [], []⟩
    (fun s' a ha h => coreStarStep_edgesInv L blocked s' a ha h)
    (fun u v w hm => absurd hm (List.not_mem_nil _))

/-- If the blocked set is normalised and the link's pair is not blocked,
the pair's key ends up in `seen_edges`. -/
theorem coreFinal_seen_reached (L : Loader) (blocked : List (ℕ × ℕ))
    (hnorm : ∀ p ∈ blocked, p.1 ≤ p.2) (s : StarData) (hs : s ∈ allStars L)
    (link : Link) (hlink : link ∈ s.linkedTo)
    (hnb : normPair s.id link.starId ∉ blocked) :
    normPair s.id link.starId ∈ (coreFinal L blocked).seen := by
  unfold coreFinal
  refine foldlReachMem (coreStarStep blocked)
    (fun st => normPair s.id link.starId ∈ st.seen) (allStars L) ⟨[], [], []⟩ s hs
    (fun s' a _ h => coreStarStep_seen_mono blocked s' a _ h) ?_
  intro st
  unfold coreStarStep
  refine foldlReachMem (coreLinkStep blocked s.id)
    (fun st' => normPair s.id link.starId ∈ st'.seen) s.linkedTo
    { st with nodes := setAddNat st.nodes s.id } link hlink
    (fun s' a _ h => coreLinkStep_seen_mono blocked s.id s' a _ h) ?_
  intro st'
  unfold coreLinkStep
  dsimp only
  have hcheck : ¬ ((s.id, link.starId) ∈ blocked ∨ (link.starId, s.id) ∈ blocked) := by
    rintro (hb | hb)
    · have hle := hnorm _ hb
      apply hnb
      unfold normPair
      rw [if_pos hle]
      exact hb
    · have hle := hnorm _ hb
      apply hnb
      unfold normPair
      by_cases h2 : s.id ≤ link.starId
      · have heq : s.id = link.starId := le_antisymm h2 hle
        rw [if_pos h2]
        rw [heq] at hb ⊢
        exact hb
      · rw [if_neg h2]
        exact hb
  rw [if_neg hcheck]
  split
  · assumption
  · exact List.mem_append_right _ (List.mem_singleton.mpr rfl)

end GraphUtils

namespace MaxFlow

/-- Every edge emitted by `flowLinks` respects the blocked set and carries
some link's declared capacity (default `defaultCap`). -/
theorem flowLinks_sound (L : Loader) (blocked : List (ℕ × ℕ)) (dc : ℚ)
    (und : Bool) (u : ℕ) :
    ∀ (links : List Link) (es : List BFEdge) (ns : List ℕ),
      flowLinks L blocked dc und u links = .ok (es, ns) →
      ∀ e ∈ es, ∃ link ∈ links, (find_star_by_id L link.starId).isSome ∧
        normPair u link.starId ∉ blocked ∧ ¬ link.capacity.getD dc < 0 ∧
        (e = (u, link.starId, link.capacity.getD dc) ∨
         (und = true ∧ e = (link.starId, u, link.capacity.getD dc)))
  | [], es, ns, h, e, he => by
    simp only [flowLinks, Except.ok.injEq, Prod.mk.injEq] at h
    rw [← h.1] at he
    exact absurd he (List.not_mem_nil _)
  | link :: rest, es, ns, h, e, he => by
    rw [flowLinks] at h
    cases hf : find_star_by_id L link.starId with
    | none =>
      rw [hf] at h
      obtain ⟨l', hl', hrest⟩ := flowLinks_sound L blocked dc und u rest es ns h e he
      exact ⟨l', List.mem_cons_of_mem _ hl', hrest⟩
    | some tgt =>
      rw [hf] at h
      dsimp only at h
      by_cases hb : normPair u link.starId ∈ blocked
      · rw [if_pos hb] at h
        obtain ⟨l', hl', hrest⟩ := flowLinks_sound L blocked dc und u rest es ns h e he
        exact ⟨l', List.mem_cons_of_mem _ hl', hrest⟩
      · rw [if_neg hb] at h
        by_cases hc : link.capacity.getD dc < 0
        · rw [if_pos hc] at h
          exact Except.noConfusion h
        · rw [if_neg hc] at h
          cases hrest : flowLinks L blocked dc und u rest with
          | error msg =>
            rw [hrest] at h
            exact Except.noConfusion h
          | ok p =>
            obtain ⟨es', ns'⟩ := p
            rw [hrest] at h
            simp only [Except.ok.injEq, Prod.mk.injEq] at h
            obtain ⟨hes, _⟩ := h
            rw [← hes] at he
            rcases List.mem_append.mp he with hm | hm
            · rcases List.mem_cons.mp hm with rfl | hm'
              · exact ⟨link, List.mem_cons_self _ _, by rw [hf]; rfl, hb, hc, Or.inl rfl⟩
              · cases hund : und with
                | false => rw [hund] at hm'; exact absurd hm' (List.not_mem_nil _)
                | true =>
                  rw [hund] at hm'
                  have he' : e = (link.starId, u, link.capacity.getD dc) := by
                    simpa using hm'
                  exact ⟨link, List.mem_cons_self _ _, by rw [hf]; rfl, hb, hc,
                    Or.inr ⟨rfl, he'⟩⟩
            · obtain ⟨l', hl', hrest'⟩ :=
                flowLinks_sound L blocked dc und u rest es' ns' hrest e hm
              exact ⟨l', List.mem_cons_of_mem _ hl', hrest'⟩

/-- If `flowLinks` returns normally, the edges of a specific accepted link
are in the output (both directions when `undirected`). -/
theorem flowLinks_reach (L : Loader) (blocked : List (ℕ × ℕ)) (dc : ℚ)
    (und : Bool) (u : ℕ) :
    ∀ (links : List Link) (es : List BFEdge) (ns : List ℕ),
      flowLinks L blocked dc und u links = .ok (es, ns) →
      ∀ link ∈ links, (find_star_by_id L link.starId).isSome →
        normPair u link.starId ∉ blocked →
        (u, link.starId, link.capacity.getD dc) ∈ es ∧
        (und = true → (link.starId, u, link.capacity.getD dc) ∈ es)
  | [], es, ns, h, link, hlink, _, _ => absurd hlink (List.not_mem_nil _)
  | l0 :: rest, es, ns, h, link, hlink, hfind, hnb => by
    rw [flowLinks] at h
    rcases List.mem_cons.mp hlink with rfl | hlink'
    · obtain ⟨tgt, hf⟩ := Option.isSome_iff_exists.mp hfind
      rw [hf] at h
      dsimp only at h
      rw [if_neg hnb] at h
      by_cases hc : link.capacity.getD dc < 0
      · rw [if_pos hc] at h
        exact Except.noConfusion h
      · rw [if_neg hc] at h
        cases hrest : flowLinks L blocked dc und u rest with
        | error msg => rw [hrest] at h; exact Except.noConfusion h
        | ok p =>
          obtain ⟨es', ns'⟩ := p
          rw [hrest] at h
          simp only [Except.ok.injEq, Prod.mk.injEq] at h
          obtain ⟨hes, _⟩ := h
          rw [← hes]
          constructor
          · exact List.mem_append_left _ (List.mem_cons_self _ _)
          · intro hund
            rw [hund]
            exact List.mem_append_left _ (List.mem_cons_of_mem _ (by simp))
    · cases hf : find_star_by_id L l0.starId with
      | none =>
        rw [hf] at h
        exact flowLinks_reach L blocked dc und u rest es ns h link hlink' hfind hnb
      | some tgt =>
        rw [hf] at h
        dsimp only at h
        by_cases hb : normPair u l0.starId ∈ blocked
        · rw [if_pos hb] at h
          exact flowLinks_reach L blocked dc und u rest es ns h link hlink' hfind hnb
        · rw [if_neg hb] at h
          by_cases hc : l0.capacity.getD dc < 0
          · rw [if_pos hc] at h
            exact Except.noConfusion h
          · rw [if_neg hc] at h
            cases hrest : flowLinks L blocked dc und u rest with
            | error msg => rw [hrest] at h; exact Except.noConfusion h
            | ok p =>
              obtain ⟨es', ns'⟩ := p
              rw [hrest] at h
              simp only [Except.ok.injEq, Prod.mk.injEq] at h
              obtain ⟨hes, _⟩ := h
              rw [← hes]
              obtain ⟨h1, h2⟩ := flowLinks_reach L blocked dc und u rest es' ns' hrest
                link hlink' hfind hnb
              exact ⟨List.mem_append_right _ h1, fun hund => List.mem_append_right _ (h2 hund)⟩

/-- Star-level soundness: every edge of a normal `flowStars` result comes
from an accepted link of one of the stars. -/
theorem flowStars_sound (L : Loader) (blocked : List (ℕ × ℕ)) (dc : ℚ)
    (und : Bool) :
    ∀ (stars : List StarData) (es : List BFEdge) (ns : List ℕ),
      flowStars L blocked dc und stars = .ok (es, ns) →
      ∀ e ∈ es, ∃ s ∈ stars, ∃ link ∈ s.linkedTo,
        (find_star_by_id L link.starId).isSome ∧
        normPair s.id link.starId ∉ blocked ∧ ¬ link.capacity.getD dc < 0 ∧
        (e = (s.id, link.starId, link.capacity.getD dc) ∨
         (und = true ∧ e = (link.starId, s.id, link.capacity.getD dc)))
  | [], es, ns, h, e, he => by
    simp only [flowStars, Except.ok.injEq, Prod.mk.injEq] at h
    rw [← h.1] at he
    exact absurd he (List.not_mem_nil _)
  | s0 :: rest, es, ns, h, e, he => by
    rw [flowStars] at h
    cases h1 : flowLinks L blocked dc und s0.id s0.linkedTo with
    | error msg => rw [h1] at h; exact Except.noConfusion h
    | ok p1 =>
      obtain ⟨es1, ns1⟩ := p1
      rw [h1] at h
      cases h2 : flowStars L blocked dc und rest with
      | error msg => rw [h2] at h; exact Except.noConfusion h
      | ok p2 =>
        obtain ⟨es2, ns2⟩ := p2
        rw [h2] at h
        simp only [Except.ok.injEq, Prod.mk.injEq] at h
        obtain ⟨hes, _⟩ := h
        rw [← hes] at he
        rcases List.mem_append.mp he with hm | hm
        · obtain ⟨link, hlink, hrest⟩ := flowLinks_sound L blocked dc und s0.id
            s0.linkedTo es1 ns1 h1 e hm
          exact ⟨s0, List.mem_cons_self _ _, link, hlink, hrest⟩
        · obtain ⟨s', hs', hrest⟩ := flowStars_sound L blocked dc und rest es2 ns2 h2 e hm
          exact ⟨s', List.mem_cons_of_mem _ hs', hrest⟩

/-- Star-level reach: the edges of an accepted link of a listed star appear
in a normal `flowStars` result. -/
theorem flowStars_reach (L : Loader) (blocked : List (ℕ × ℕ)) (dc : ℚ)
    (und : Bool) :
    ∀ (stars : List StarData) (es : List BFEdge) (ns : List ℕ),
      flowStars L blocked dc und stars = .ok (es, ns) →
      ∀ s ∈ stars, ∀ link ∈ s.linkedTo, (find_star_by_id L link.starId).isSome →
        normPair s.id link.starId ∉ blocked →
        (s.id, link.starId, link.capacity.getD dc) ∈ es ∧
        (und = true → (link.starId, s.id, link.capacity.getD dc) ∈ es)
  | [], es, ns, h, s, hs, _, _, _, _ => absurd hs (List.not_mem_nil _)
  | s0 :: rest, es, ns, h, s, hs, link, hlink, hfind, hnb => by
    rw [flowStars] at h
    cases h1 : flowLinks L blocked dc und s0.id s0.linkedTo with
    | error msg => rw [h1] at h; exact Except.noConfusion h
    | ok p1 =>
      obtain ⟨es1, ns1⟩ := p1
      rw [h1] at h
      cases h2 : flowStars L blocked dc und rest with
      | error msg => rw [h2] at h; exact Except.noConfusion h
      | ok p2 =>
        obtain ⟨es2, ns2⟩ := p2
        rw [h2] at h
        simp only [Except.ok.injEq, Prod.mk.injEq] at h
        obtain ⟨hes, _⟩ := h
        rw [← hes]
        rcases List.mem_cons.mp hs with rfl | hs'
        · obtain ⟨ha, hb2⟩ := flowLinks_reach L blocked dc und s.id s.linkedTo
            es1 ns1 h1 link hlink hfind hnb
          exact ⟨List.mem_append_left _ ha, fun hu => List.mem_append_left _ (hb2 hu)⟩
        · obtain ⟨ha, hb2⟩ := flowStars_reach L blocked dc und rest es2 ns2 h2
            s hs' link hlink hfind hnb
          exact ⟨List.mem_append_right _ ha, fun hu => List.mem_append_right _ (hb2 hu)⟩

end MaxFlow

/-- **C3.** With a normalised blocked-pair set (the encoding of a set of
unordered pairs): each of the three graph builders emits no directed edge
between `u` and `v` when `{u, v}` is blocked; and for a declared link (to a
declared target star, for the two builders that look the target up) whose
pair is not blocked, both directed edges are emitted (`undirected = true`
for the flow builder, its default). -/
theorem C3_blocked_pairs (euclid : Coord → Coord → ℚ) (L : Loader)
    (blocked : List (ℕ × ℕ)) (hnorm : ∀ p ∈ blocked, p.1 ≤ p.2) :
    (∀ u v w, normPair u v ∈ blocked →
      (u, v, w) ∉ (BellmanFord.build_graph_from_loader euclid L blocked).2) ∧
    (∀ s ∈ allStars L, ∀ link ∈ s.linkedTo, ∀ tgt,
      find_star_by_id L link.starId = some tgt →
      normPair s.id link.starId ∉ blocked →
      ∃ w, (s.id, link.starId, w) ∈ (BellmanFord.build_graph_from_loader euclid L blocked).2 ∧
        (link.starId, s.id, w) ∈ (BellmanFord.build_graph_from_loader euclid L blocked).2) ∧
    (∀ u v w, normPair u v ∈ blocked →
      (u, v, w) ∉ (GraphUtils.build_graph_from_loader L blocked).2) ∧
    (∀ s ∈ allStars L, ∀ link ∈ s.linkedTo,
      normPair s.id link.starId ∉ blocked →
      ∃ w, (s.id, link.starId, w) ∈ (GraphUtils.build_graph_from_loader L blocked).2 ∧
        (link.starId, s.id, w) ∈ (GraphUtils.build_graph_from_loader L blocked).2) ∧
    (∀ dc ns es, MaxFlow.build_flow_graph_from_loader L blocked dc true = .ok (ns, es) →
      ∀ u v w, normPair u v ∈ blocked → (u, v, w) ∉ es) ∧
    (∀ dc ns es, MaxFlow.build_flow_graph_from_loader L blocked dc true = .ok (ns, es) →
      ∀ s ∈ allStars L, ∀ link ∈ s.linkedTo,
        (find_star_by_id L link.starId).isSome →
        normPair s.id link.starId ∉ blocked →
        ∃ w, (s.id, link.starId, w) ∈ es ∧ (link.starId, s.id, w) ∈ es) := by
  refine ⟨?_, ?_, ?_, ?_, ?_, ?_⟩
  · -- Bellman-Ford builder omits blocked pairs.
    intro u v w hb hmem
    obtain ⟨s, _, link, _, hc⟩ := (BellmanFord.build_mem euclid L blocked _).mp hmem
    rw [BellmanFord.linkContribution_mem] at hc
    obtain ⟨tgt, _, hnb, hor⟩ := hc
    rcases hor with he | he
    · obtain ⟨rfl, rfl, rfl⟩ : u = s.id ∧ v = link.starId ∧
          w = link.weight.getD (euclid s.coord tgt.coord) := by
        simpa using he
      exact hnb hb
    · obtain ⟨rfl, rfl, rfl⟩ : u = link.starId ∧ v = s.id ∧
          w = link.weight.getD (euclid s.coord tgt.coord) := by
        simpa using he
      rw [normPair_comm] at hb
      exact hnb hb
  · -- Bellman-Ford builder emits both directions for accepted links.
    intro s hs link hlink tgt hf hnb
    refine ⟨link.weight.getD (euclid s.coord tgt.coord), ?_, ?_⟩ <;>
    · rw [BellmanFord.build_mem]
      refine ⟨s, hs, link, hlink, ?_⟩
      rw [BellmanFord.linkContribution_mem]
      exact ⟨tgt, hf, hnb, by simp⟩
  · -- graph_utils builder omits blocked pairs.
    intro u v w hb hmem
    exact ((GraphUtils.coreFinal_edgesInv L blocked) u v w hmem).1 hb
  · -- graph_utils builder emits both directions for accepted links.
    intro s hs link hlink hnb
    have hseen := GraphUtils.coreFinal_seen_reached L blocked hnorm s hs link hlink hnb
    obtain ⟨w, h1, h2⟩ := GraphUtils.coreFinal_seenInv L blocked _ hseen
    refine ⟨w, ?_, ?_⟩ <;>
    · show _ ∈ (GraphUtils.coreFinal L blocked).edges
      unfold normPair at h1 h2
      by_cases hle : s.id ≤ link.starId
      · rw [if_pos hle] at h1 h2
        first
          | exact h1
          | exact h2
      · rw [if_neg hle] at h1 h2
        first
          | exact h1
          | exact h2
  · -- flow builder omits blocked pairs.
    intro dc ns es hok u v w hb hmem
    unfold MaxFlow.build_flow_graph_from_loader at hok
    cases hfs : MaxFlow.flowStars L blocked dc true (allStars L) with
    | error msg => rw [hfs] at hok; exact Except.noConfusion hok
    | ok p =>
      obtain ⟨es', ns'⟩ := p
      rw [hfs] at hok
      simp only [Except.ok.injEq, Prod.mk.injEq] at hok
      obtain ⟨_, hes⟩ := hok
      rw [← hes] at hmem
      obtain ⟨s, _, link, _, _, hnb, _, hor⟩ :=
        MaxFlow.flowStars_sound L blocked dc true (allStars L) es' ns' hfs _ hmem
      rcases hor with he | ⟨_, he⟩
      · obtain ⟨rfl, rfl, rfl⟩ : u = s.id ∧ v = link.starId ∧
            w = link.capacity.getD dc := by simpa using he
        exact hnb hb
      · obtain ⟨rfl, rfl, rfl⟩ : u = link.starId ∧ v = s.id ∧
            w = link.capacity.getD dc := by simpa using he
        rw [normPair_comm] at hb
        exact hnb hb
  · -- flow builder emits both directions for accepted links.
    intro dc ns es hok s hs link hlink hfind hnb
    unfold MaxFlow.build_flow_graph_from_loader at hok
    cases hfs : MaxFlow.flowStars L blocked dc true (allStars L) with
    | error msg => rw [hfs] at hok; exact Except.noConfusion hok
    | ok p =>
      obtain ⟨es', ns'⟩ := p
      rw [hfs] at hok
      simp only [Except.ok.injEq, Prod.mk.injEq] at hok
      obtain ⟨_, hes⟩ := hok
      rw [← hes]
      obtain ⟨h1, h2⟩ := MaxFlow.flowStars_reach L blocked dc true (allStars L)
        es' ns' hfs s hs link hlink hfind hnb
      exact ⟨link.capacity.getD dc, h1, h2 rfl⟩

/-- Test star 1: id 1 at (0,0), one link to star 2 with declared
weight/distance/capacity 5. -/
def testStar1 : StarData := ⟨1, "A", ⟨0, 0⟩, [⟨2, some 5, some 5, some 5⟩], false, some 1⟩

/-- Test star 2: id 2 at (3,4), no links. -/
def testStar2 : StarData := ⟨2, "B", ⟨3, 4⟩, [], false, some 1⟩

/-- A two-star dataset used by the builder witnesses. -/
def testLoader : Loader := ⟨[⟨[testStar1, testStar2]⟩]⟩

/-- Witness for C3 at the two-star dataset: with `{1, 2}` blocked no builder
emits `(1, 2, ·)`; with nothing blocked all three emit both directions. -/
theorem C3_witness :
    ((1, 2, (5 : ℚ)) ∉ (BellmanFord.build_graph_from_loader (fun _ _ => 0) testLoader [(1, 2)]).2) ∧
    (∃ w, (1, 2, w) ∈ (BellmanFord.build_graph_from_loader (fun _ _ => 0) testLoader []).2 ∧
      (2, 1, w) ∈ (BellmanFord.build_graph_from_loader (fun _ _ => 0) testLoader []).2) ∧
    ((1, 2, (5 : ℚ)) ∉ (GraphUtils.build_graph_from_loader testLoader [(1, 2)]).2) ∧
    (∃ w, (1, 2, w) ∈ (GraphUtils.build_graph_from_loader testLoader []).2 ∧
      (2, 1, w) ∈ (GraphUtils.build_graph_from_loader testLoader []).2) ∧
    (∀ w, (1, 2, w) ∉ ([] : List BFEdge)) ∧
    (∃ w, (1, 2, w) ∈ [((1 : ℕ), (2 : ℕ), (5 : ℚ)), (2, 1, 5)] ∧
      (2, 1, w) ∈ [((1 : ℕ), (2 : ℕ), (5 : ℚ)), (2, 1, 5)]) := by
  have hn1 : ∀ p ∈ [((1 : ℕ), (2 : ℕ))], p.1 ≤ p.2 := by decide
  have hn2 : ∀ p ∈ ([] : List (ℕ × ℕ)), p.1 ≤ p.2 := by decide
  have hs1 : testStar1 ∈ allStars testLoader := by
    with_unfolding_all decide
  have hlink : (⟨2, some 5, some 5, some 5⟩ : Link) ∈ testStar1.linkedTo := by
    with_unfolding_all decide
  have hfind : find_star_by_id testLoader 2 = some testStar2 := by
    with_unfolding_all rfl
  refine ⟨?_, ?_, ?_, ?_, ?_, ?_⟩
  · exact (C3_blocked_pairs (fun _ _ => 0) testLoader [(1, 2)] hn1).1 1 2 5 (by decide)
  · have h := (C3_blocked_pairs (fun _ _ => 0) testLoader [] hn2).2.1 testStar1 hs1
      ⟨2, some 5, some 5, some 5⟩ hlink testStar2 hfind (by decide)
    exact h
  · exact (C3_blocked_pairs (fun _ _ => 0) testLoader [(1, 2)] hn1).2.2.1 1 2 5 (by decide)
  · have h := (C3_blocked_pairs (fun _ _ => 0) testLoader [] hn2).2.2.2.1 testStar1 hs1
      ⟨2, some 5, some 5, some 5⟩ hlink (by decide)
    exact h
  · have hok : MaxFlow.build_flow_graph_from_loader testLoader [(1, 2)] 1 true =
        .ok ([1, 2], []) := by
      with_unfolding_all rfl
    exact fun w => (C3_blocked_pairs (fun _ _ => 0) testLoader [(1, 2)] hn1).2.2.2.2.1
      1 [1, 2] [] hok 1 2 w (by decide)
  · have hok : MaxFlow.build_flow_graph_from_loader testLoader [] 1 true =
        .ok ([1, 2], [(1, 2, 5), (2, 1, 5)]) := by
      with_unfolding_all rfl
    have h := (C3_blocked_pairs (fun _ _ => 0) testLoader [] hn2).2.2.2.2.2
      1 [1, 2] [(1, 2, 5), (2, 1, 5)] hok testStar1 hs1
      ⟨2, some 5, some 5, some 5⟩ hlink (by rw [hfind]; rfl) (by decide)
    exact h

/-- The dataset of the C4 counterexample: star 1 at (0,0) linked to star 2
at (3,4) with *no* declared weight/distance; the Euclidean distance is 5. -/
def c4Star1 : StarData := ⟨1, "A", ⟨0, 0⟩, [⟨2, none, none, none⟩], false, some 1⟩

/-- Second star of the C4 counterexample. -/
def c4Star2 : StarData := ⟨2, "B", ⟨3, 4⟩, [], false, some 1⟩

/-- Loader of the C4 counterexample. -/
def c4Loader : Loader := ⟨[⟨[c4Star1, c4Star2]⟩]⟩

/-- **C4, counterexample.** The claim says *every* builder falls back to the
Euclidean distance when no weight is declared.  The `graph_utils` builder
(used by the planner) instead falls back to the constant `1.0`: on a link
with no declared value between (0,0) and (3,4) it emits weight 1, whose
square (1) differs from the squared Euclidean distance (25), so the weight
is not the Euclidean distance 5. -/
theorem C4_counterexample :
    (GraphUtils.build_graph_from_loader c4Loader []).2 = [(1, 2, 1), (2, 1, 1)] ∧
    (1 : ℚ) ^ 2 ≠ euclidSqQ ⟨0, 0⟩ ⟨3, 4⟩ := by
  constructor
  · with_unfolding_all rfl
  · intro hcon
    have h25 : euclidSqQ ⟨0, 0⟩ ⟨3, 4⟩ = 25 := by norm_num [euclidSqQ]
    rw [h25] at hcon
    norm_num at hcon

/-- **C4, amended.** The shortest-path builder (`bellman_algor.py`) weights
each emitted edge by the link's declared `weight` when present and the
Euclidean distance otherwise; the planner's builder (`graph_utils.py`)
weights by the declared `distance` when present and the constant `1.0`
otherwise (never the Euclidean distance); the flow builder weights by the
declared `capacity` when present and its `default_capacity` parameter
otherwise. -/
theorem C4_edge_weights (euclid : Coord → Coord → ℚ) (L : Loader)
    (blocked : List (ℕ × ℕ)) :
    (∀ s ∈ allStars L, ∀ link ∈ s.linkedTo, ∀ tgt,
      find_star_by_id L link.starId = some tgt →
      normPair s.id link.starId ∉ blocked →
      (s.id, link.starId, link.weight.getD (euclid s.coord tgt.coord)) ∈
        (BellmanFord.build_graph_from_loader euclid L blocked).2 ∧
      (link.starId, s.id, link.weight.getD (euclid s.coord tgt.coord)) ∈
        (BellmanFord.build_graph_from_loader euclid L blocked).2) ∧
    (∀ u v w, (u, v, w) ∈ (GraphUtils.build_graph_from_loader L blocked).2 →
      ∃ s ∈ allStars L, ∃ link ∈ s.linkedTo, w = link.distance.getD 1 ∧
        ((u, v) = (s.id, link.starId) ∨ (u, v) = (link.starId, s.id))) ∧
    (∀ dc ns es, MaxFlow.build_flow_graph_from_loader L blocked dc true = .ok (ns, es) →
      ∀ s ∈ allStars L, ∀ link ∈ s.linkedTo,
        (find_star_by_id L link.starId).isSome →
        normPair s.id link.starId ∉ blocked →
        (s.id, link.starId, link.capacity.getD dc) ∈ es ∧
        (link.starId, s.id, link.capacity.getD dc) ∈ es) := by
  refine ⟨?_, ?_, ?_⟩
  · intro s hs link hlink tgt hf hnb
    constructor <;>
    · rw [BellmanFord.build_mem]
      refine ⟨s, hs, link, hlink, ?_⟩
      rw [BellmanFord.linkContribution_mem]
      exact ⟨tgt, hf, hnb, by simp⟩
  · intro u v w hmem
    exact ((GraphUtils.coreFinal_edgesInv L blocked) u v w hmem).2
  · intro dc ns es hok s hs link hlink hfind hnb
    unfold MaxFlow.build_flow_graph_from_loader at hok
    cases hfs : MaxFlow.flowStars L blocked dc true (allStars L) with
    | error msg => rw [hfs] at hok; exact Except.noConfusion hok
    | ok p =>
      obtain ⟨es', ns'⟩ := p
      rw [hfs] at hok
      simp only [Except.ok.injEq, Prod.mk.injEq] at hok
      obtain ⟨_, hes⟩ := hok
      rw [← hes]
      obtain ⟨h1, h2⟩ := MaxFlow.flowStars_reach L blocked dc true (allStars L)
        es' ns' hfs s hs link hlink hfind hnb
      exact ⟨h1, h2 rfl⟩

/-- Witness for C4 (amended) at the two-star dataset: the Bellman-Ford
builder emits weight 5 (the declared one), `graph_utils` tags its edge
`(1, 2, 5)` with the declared `distance`, and the flow builder emits the
declared capacity 5. -/
theorem C4_witness :
    ((1, 2, (5 : ℚ)) ∈ (BellmanFord.build_graph_from_loader (fun _ _ => 0) testLoader []).2 ∧
      (2, 1, (5 : ℚ)) ∈ (BellmanFord.build_graph_from_loader (fun _ _ => 0) testLoader []).2) ∧
    (∃ s ∈ allStars testLoader, ∃ link ∈ s.linkedTo, (5 : ℚ) = link.distance.getD 1 ∧
      (((1 : ℕ), (2 : ℕ)) = (s.id, link.starId) ∨ ((1 : ℕ), (2 : ℕ)) = (link.starId, s.id))) ∧
    ((1, 2, (5 : ℚ)) ∈ [((1 : ℕ), (2 : ℕ), (5 : ℚ)), (2, 1, 5)] ∧
      (2, 1, (5 : ℚ)) ∈ [((1 : ℕ), (2 : ℕ), (5 : ℚ)), (2, 1, 5)]) := by
  have hs1 : testStar1 ∈ allStars testLoader := by
    with_unfolding_all decide
  have hlink : (⟨2, some 5, some 5, some 5⟩ : Link) ∈ testStar1.linkedTo := by
    with_unfolding_all decide
  have hfind : find_star_by_id testLoader 2 = some testStar2 := by
    with_unfolding_all rfl
  refine ⟨?_, ?_, ?_⟩
  · have h := (C4_edge_weights (fun _ _ => 0) testLoader []).1 testStar1 hs1
      ⟨2, some 5, some 5, some 5⟩ hlink testStar2 hfind (by decide)
    simp only [Option.getD] at h
    exact h
  · have hmem : ((1 : ℕ), (2 : ℕ), (5 : ℚ)) ∈
        (GraphUtils.build_graph_from_loader testLoader []).2 := by
      with_unfolding_all decide
    exact (C4_edge_weights (fun _ _ => 0) testLoader []).2.1 1 2 5 hmem
  · have hok : MaxFlow.build_flow_graph_from_loader testLoader [] 1 true =
        .ok ([1, 2], [(1, 2, 5), (2, 1, 5)]) := by
      with_unfolding_all rfl
    have h := (C4_edge_weights (fun _ _ => 0) testLoader []).2.2
      1 [1, 2] [(1, 2, 5), (2, 1, 5)] hok testStar1 hs1
      ⟨2, some 5, some 5, some 5⟩ hlink (by rw [hfind]; rfl) (by decide)
    simp only [Option.getD] at h
    exact h

/-! ## `MaxFlow` (`ford_algor.py`): construction with capacity validation
and accumulation, Edmonds-Karp `run`, and the residual in-place mutation.

The nested `defaultdict` `self.cap` is modelled as an association list of
association lists, preserving dict insertion order (BFS iterates
`self.cap[u].items()` in that order).  An edge capacity is `Option ℚ`:
`none` models the `None`/non-numeric inputs rejected by `float(c)`. -/

namespace MaxFlow

/-- The inner capacity row: target node to residual capacity, insertion
ordered. -/
abbrev CapRow := List (ℕ × ℚ)

/-- The outer capacity dict: node to capacity row, insertion ordered. -/
abbrev CapT := List (ℕ × CapRow)

/-- Association-list update: replace the first binding of `k` using `f` (a
missing binding starts from the default `d` and is appended, like a
`defaultdict` access). -/
def alUpdate {α : Type _} (d : α) (f : α → α) (k : ℕ) : List (ℕ × α) → List (ℕ × α)
  | [] => [(k, f d)]
  | (k', a) :: t => if k' = k then (k', f a) :: t else (k', a) :: alUpdate d f k t

/-- Association-list lookup with default (the first binding wins, as in a
Python dict where `alUpdate` keeps a single binding per key). -/
def alGetD {α : Type _} (d : α) : List (ℕ × α) → ℕ → α
  | [], _ => d
  | (k', a) :: t, k => if k' = k then a else alGetD d t k

/-- `self.cap[u][v] += c`. -/
def capAdd (cap : CapT) (u v : ℕ) (c : ℚ) : CapT :=
  alUpdate [] (alUpdate 0 (· + c) v) u cap

/-- `self.cap[u][v] -= c`. -/
def capSub (cap : CapT) (u v : ℕ) (c : ℚ) : CapT :=
  alUpdate [] (alUpdate 0 (· - c) v) u cap

/-- `_ = self.cap[n]`: ensure an (empty) row for `n` exists. -/
def capTouch (cap : CapT) (n : ℕ) : CapT := alUpdate [] id n cap

/-- `self.cap[u][v]` as a value (0 when absent, the defaultdict default). -/
def capGet (cap : CapT) (u v : ℕ) : ℚ := alGetD 0 (alGetD [] cap u) v

/-- A `MaxFlow` instance: node list (deduplicated, order preserved) and the
residual capacity dict. -/
structure MFState where
  nodes : List ℕ
  cap : CapT
deriving Repr

/-- The capacity-loading loop of `MaxFlow.__init__`: `None` capacity raises
`InvalidPathError` (as does a non-numeric one, both modelled by `none`);
a negative capacity raises; otherwise `self.cap[u][v] += c`. -/
def mfLoad : List (ℕ × ℕ × Option ℚ) → CapT → Except String CapT
  | [], cap => .ok cap
  | (u, v, oc) :: rest, cap =>
    match oc with
    | none => .error "Capacidad None o no numerica"
    | some c =>
      if c < 0 then .error "Capacidad negativa"
      else mfLoad rest (capAdd cap u v c)

/-- `MaxFlow.__init__(nodes, edges)`: deduplicate the nodes (first
occurrence, like `dict.fromkeys`), validate and accumulate the capacities,
then ensure every node has a row. -/
def init (nodes : List ℕ) (edges : List (ℕ × ℕ × Option ℚ)) : Except String MFState :=
  let nodes' := pyDedup nodes
  match mfLoad edges [] with
  | .error msg => .error msg
  | .ok cap => .ok ⟨nodes', nodes'.foldl capTouch cap⟩

/-- The sum of the declared capacities of the parallel edges `u → v`. -/
def sumCaps (edges : List (ℕ × ℕ × Option ℚ)) (u v : ℕ) : ℚ :=
  ((edges.filter (fun e => e.1 = u ∧ e.2.1 = v)).map (fun e => (e.2.2).getD 0)).sum

theorem alGetD_alUpdate_same {α : Type _} (d : α) (f : α → α) (k : ℕ) :
    ∀ l : List (ℕ × α), alGetD d (alUpdate d f k l) k = f (alGetD d l k)
  | [] => by simp [alGetD, alUpdate]
  | (k', a) :: t => by
    by_cases hk : k' = k
    · subst hk
      rw [alUpdate, if_pos rfl, alGetD, if_pos rfl, alGetD, if_pos rfl]
    · rw [alUpdate, if_neg hk, alGetD, if_neg hk, alGetD, if_neg hk]
      exact alGetD_alUpdate_same d f k t

theorem alGetD_alUpdate_other {α : Type _} (d : α) (f : α → α) (k k' : ℕ)
    (hne : k ≠ k') : ∀ l : List (ℕ × α), alGetD d (alUpdate d f k l) k' = alGetD d l k'
  | [] => by
    simp [alUpdate, alGetD, hne]
  | (k0, a) :: t => by
    by_cases hk : k0 = k
    · subst hk
      rw [alUpdate, if_pos rfl, alGetD, alGetD]
      have h2 : ¬ (k0 = k') := hne
      rw [if_neg h2, if_neg h2]
    · rw [alUpdate, if_neg hk, alGetD, alGetD]
      by_cases h2 : k0 = k'
      · rw [if_pos h2, if_pos h2]
      · rw [if_neg h2, if_neg h2]
        exact alGetD_alUpdate_other d f k k' hne t

theorem capGet_capAdd_same (cap : CapT) (u v : ℕ) (c : ℚ) :
    capGet (capAdd cap u v c) u v = capGet cap u v + c := by
  unfold capGet capAdd
  rw [alGetD_alUpdate_same, alGetD_alUpdate_same]

theorem capGet_capAdd_other (cap : CapT) (u v u' v' : ℕ) (c : ℚ)
    (hne : (u, v) ≠ (u', v')) :
    capGet (capAdd cap u v c) u' v' = capGet cap u' v' := by
  unfold capGet capAdd
  by_cases hu : u = u'
  · subst hu
    have hv : v ≠ v' := fun hv => hne (by rw [hv])
    rw [alGetD_alUpdate_same, alGetD_alUpdate_other _ _ _ _ hv]
  · rw [alGetD_alUpdate_other _ _ _ _ hu]

theorem capGet_capTouch (cap : CapT) (n u v : ℕ) :
    capGet (capTouch cap n) u v = capGet cap u v := by
  unfold capGet capTouch
  by_cases hn : n = u
  · subst hn
    rw [alGetD_alUpdate_same]
    rfl
  · rw [alGetD_alUpdate_other _ _ _ _ hn]

/-- `mfLoad` on all-valid edges returns normally and accumulates exactly the
sum of the parallel capacities on top of the incoming dict. -/
theorem mfLoad_ok :
    ∀ (edges : List (ℕ × ℕ × Option ℚ)) (cap : CapT),
      (∀ e ∈ edges, ∃ c, e.2.2 = some c ∧ 0 ≤ c) →
      ∃ cap', mfLoad edges cap = .ok cap' ∧
        ∀ u v, capGet cap' u v = capGet cap u v + sumCaps edges u v
  | [], cap, _ => ⟨cap, rfl, by simp [sumCaps]⟩
  | (u0, v0, oc) :: rest, cap, hval => by
    obtain ⟨c, hc, hc0⟩ := hval (u0, v0, oc) (List.mem_cons_self _ _)
    subst hc
    rw [mfLoad]
    rw [if_neg (not_lt.mpr hc0)]
    obtain ⟨cap', hok, hsum⟩ := mfLoad_ok rest (capAdd cap u0 v0 c)
      (fun e he => hval e (List.mem_cons_of_mem _ he))
    refine ⟨cap', hok, fun u v => ?_⟩
    rw [hsum u v]
    by_cases he : (u0, v0) = (u, v)
    · injection he with h1 h2
      subst h1
      subst h2
      rw [capGet_capAdd_same]
      unfold sumCaps
      rw [List.filter_cons]
      rw [if_pos (by simp)]
      simp only [List.map_cons, List.sum_cons, Option.getD_some]
      ring
    · rw [capGet_capAdd_other _ _ _ _ _ _ he]
      unfold sumCaps
      rw [List.filter_cons]
      have hne2 : ¬ (u0 = u ∧ v0 = v) := by
        intro ⟨h1, h2⟩
        exact he (by rw [h1, h2])
      rw [if_neg (by simpa using hne2)]

/-- `mfLoad` fails on the first invalid capacity. -/
theorem mfLoad_bad :
    ∀ (edges : List (ℕ × ℕ × Option ℚ)) (cap : CapT),
      (∃ e ∈ edges, e.2.2 = none ∨ ∃ c, e.2.2 = some c ∧ c < 0) →
      ∃ msg, mfLoad edges cap = .error msg
  | [], _, hbad => by
    obtain ⟨e, he, _⟩ := hbad
    exact absurd he (List.not_mem_nil _)
  | (u0, v0, oc) :: rest, cap, hbad => by
    cases oc with
    | none => exact ⟨_, rfl⟩
    | some c =>
      by_cases hc : c < 0
      · refine ⟨"Capacidad negativa", ?_⟩
        show (if c < 0 then Except.error "Capacidad negativa"
          else mfLoad rest (capAdd cap u0 v0 c)) = _
        rw [if_pos hc]
      · have hstep : mfLoad ((u0, v0, some c) :: rest) cap =
            mfLoad rest (capAdd cap u0 v0 c) := by
          show (if c < 0 then Except.error "Capacidad negativa"
            else mfLoad rest (capAdd cap u0 v0 c)) = _
          rw [if_neg hc]
        rw [hstep]
        apply mfLoad_bad rest
        obtain ⟨e, he, hform⟩ := hbad
        rcases List.mem_cons.mp he with rfl | he'
        · rcases hform with h | ⟨c', hc', hneg⟩
          · exact absurd h (by simp)
          · obtain rfl : c = c' := by simpa using hc'
            exact absurd hneg hc
        · exact ⟨e, he', hform⟩

end MaxFlow

/-- **C5.** `MaxFlow.__init__` raises `InvalidPathError` when some edge
capacity is `None`/non-numeric (modelled by `none`) or negative; otherwise
it returns normally — no valid input fails — and the stored initial
capacity of every ordered pair `(u, v)` is the sum of the capacities of the
parallel `u → v` edges. -/
theorem C5_maxflow_init (nodes : List ℕ) (edges : List (ℕ × ℕ × Option ℚ)) :
    ((∃ e ∈ edges, e.2.2 = none ∨ ∃ c, e.2.2 = some c ∧ c < 0) →
      ∃ msg, MaxFlow.init nodes edges = .error msg) ∧
    ((∀ e ∈ edges, ∃ c, e.2.2 = some c ∧ 0 ≤ c) →
      ∃ st, MaxFlow.init nodes edges = .ok st ∧
        ∀ u v, MaxFlow.capGet st.cap u v = MaxFlow.sumCaps edges u v) := by
  constructor
  · intro hbad
    obtain ⟨msg, hmsg⟩ := MaxFlow.mfLoad_bad edges [] hbad
    refine ⟨msg, ?_⟩
    unfold MaxFlow.init
    rw [hmsg]
  · intro hval
    obtain ⟨cap, hok, hsum⟩ := MaxFlow.mfLoad_ok edges [] hval
    refine ⟨⟨pyDedup nodes, (pyDedup nodes).foldl MaxFlow.capTouch cap⟩, ?_, ?_⟩
    · unfold MaxFlow.init
      rw [hok]
    · intro u v
      have htouch : ∀ (ns : List ℕ) (c : MaxFlow.CapT),
          MaxFlow.capGet (ns.foldl MaxFlow.capTouch c) u v = MaxFlow.capGet c u v := by
        intro ns
        induction ns with
        | nil => intro c; rfl
        | cons n t ih =>
          intro c
          rw [List.foldl_cons, ih, MaxFlow.capGet_capTouch]
      rw [htouch, hsum u v]
      have hempty : MaxFlow.capGet [] u v = 0 := rfl
      rw [hempty, zero_add]

/-- Witness for C5: a negative capacity is rejected; two valid parallel
edges `0 → 1` with capacities 2 and 3 accumulate to 5. -/
theorem C5_witness :
    (∃ msg, MaxFlow.init [0, 1] [(0, 1, some (-1 : ℚ))] = .error msg) ∧
    (∃ st, MaxFlow.init [0, 1] [(0, 1, some (2 : ℚ)), (0, 1, some 3)] = .ok st ∧
      ∀ u v, MaxFlow.capGet st.cap u v =
        MaxFlow.sumCaps [(0, 1, some (2 : ℚ)), (0, 1, some 3)] u v) := by
  constructor
  · refine (C5_maxflow_init [0, 1] [(0, 1, some (-1 : ℚ))]).1 ?_
    refine ⟨(0, 1, some (-1 : ℚ)), List.mem_cons_self _ _, Or.inr ⟨-1, rfl, by norm_num⟩⟩
  · refine (C5_maxflow_init [0, 1] [(0, 1, some (2 : ℚ)), (0, 1, some 3)]).2 ?_
    intro e he
    rcases List.mem_cons.mp he with rfl | he'
    · exact ⟨2, rfl, by norm_num⟩
    · rcases List.mem_cons.mp he' with rfl | he''
      · exact ⟨3, rfl, by norm_num⟩
      · exact absurd he'' (List.not_mem_nil _)

namespace MaxFlow

/-- `EPS = 1e-12`, the float-stall guard used by `_bfs` and `run`. -/
def eps : ℚ := 1 / 10 ^ 12

/-- Size bound of the capacity dict, used as BFS fuel: every enqueue marks a
`None` parent, and only keys of the dict can be enqueued. -/
def capSize (cap : CapT) : ℕ := (cap.map (fun p => p.2.length + 1)).sum + 1

/-- The inner loop of `_bfs` over `self.cap[u].items()`: visit each
unvisited `v` with residual capacity above `EPS`, record parent and
bottleneck, return the bottleneck early when the sink is reached, else
extend the queue. -/
def mfScan (t u : ℕ) : CapRow → (ℕ → Option ℕ) → (ℕ → WithTop ℚ) → List ℕ →
    Option ℚ × (ℕ → Option ℕ) × (ℕ → WithTop ℚ) × List ℕ
  | [], parent, flow, q => (none, parent, flow, q)
  | (v, cuv) :: items, parent, flow, q =>
    if eps < cuv ∧ parent v = none then
      let parent' := Function.update parent v (some u)
      let fv := min (flow u) (cuv : WithTop ℚ)
      let flow' := Function.update flow v fv
      if v = t then (some (fv.untop' 0), parent', flow', q)
      else mfScan t u items parent' flow' (q ++ [v])
    else mfScan t u items parent flow q

/-- The queue loop of `_bfs` (fuelled; the fuel used by the callers bounds
the number of possible enqueues). -/
def mfBFSgo (cap : CapT) (t : ℕ) :
    ℕ → List ℕ → (ℕ → Option ℕ) → (ℕ → WithTop ℚ) → ℚ × (ℕ → Option ℕ)
  | 0, _, parent, _ => (0, parent)
  | _ + 1, [], parent, _ => (0, parent)
  | fuel + 1, u :: q, parent, flow =>
    match mfScan t u (alGetD [] cap u) parent flow q with
    | (some f, parent', _, _) => (f, parent')
    | (none, parent', flow', q') => mfBFSgo cap t fuel q' parent' flow'

/-- `MaxFlow._bfs(s, t, parent)`: parents reset to `None` (the source gets
the `-1` visited marker, modelled as `some s`; the augmentation walk stops
at the source before ever reading it), `flow_to = {s: inf}`, then the queue
loop from `[s]`. -/
def mfBFS (st : MFState) (s t : ℕ) : ℚ × (ℕ → Option ℕ) :=
  let parent0 : ℕ → Option ℕ := fun n => if n = s then some s else none
  let flow0 : ℕ → WithTop ℚ := fun n => if n = s then ⊤ else 0
  mfBFSgo st.cap t (capSize st.cap + st.nodes.length + 2) [s] parent0 flow0

/-- The augmentation walk of `run`: from the sink back to the source,
`cap[u][v] -= aug; cap[v][u] += aug` (fuelled by the dict size; the parent
chain of a successful BFS is loop-free). -/
def mfAugment (parent : ℕ → Option ℕ) (s : ℕ) (aug : ℚ) :
    ℕ → ℕ → CapT → CapT
  | 0, _, cap => cap
  | fuel + 1, v, cap =>
    if v = s then cap
    else
      match parent v with
      | none => cap
      | some u => mfAugment parent s aug fuel u (capAdd (capSub cap u v aug) v u aug)

/-- The `while True` loop of `run` (fuelled): BFS for an augmenting path,
stop when the bottleneck is `≤ EPS`, else push the flow and continue. -/
def mfRunLoop (nodes : List ℕ) (s t : ℕ) : ℕ → CapT → ℚ → Option (ℚ × CapT)
  | 0, _, _ => none
  | fuel + 1, cap, acc =>
    let r := mfBFS ⟨nodes, cap⟩ s t
    if r.1 ≤ eps then some (acc, cap)
    else mfRunLoop nodes s t fuel
      (mfAugment r.2 s r.1 (capSize cap + nodes.length + 2) t cap) (acc + r.1)

/-- `_reachable_in_residual(s)`: BFS collecting the nodes reachable through
residual capacities above `EPS`. -/
def mfReachGo (cap : CapT) : ℕ → List ℕ → List ℕ → List ℕ
  | 0, _, seen => seen
  | _ + 1, [], seen => seen
  | fuel + 1, u :: q, seen =>
    let p := (alGetD [] cap u).foldl
      (fun (p : List ℕ × List ℕ) vc =>
        if eps < vc.2 ∧ vc.1 ∉ p.2 then (p.1 ++ [vc.1], p.2 ++ [vc.1]) else p)
      (q, seen)
    mfReachGo cap fuel p.1 p.2

/-- `MaxFlow._reachable_in_residual`. -/
def reachable_in_residual (st : MFState) (s : ℕ) : List ℕ :=
  mfReachGo st.cap (capSize st.cap + st.nodes.length + 2) [s] [s]

/-- `MaxFlow.run(source, sink)` (fuelled loop; `none` = fuel exhausted):
validate the endpoints, run Edmonds-Karp, and return the flow value, the
residual dict (which *is* the instance's mutated `self.cap`), the reachable
set, and the instance state after the run. -/
def run (st : MFState) (source sink : ℕ) (fuel : ℕ) :
    Option (Except String (ℚ × CapT × List ℕ × MFState)) :=
  if source ∈ st.nodes ∧ sink ∈ st.nodes then
    match mfRunLoop st.nodes source sink fuel st.cap 0 with
    | none => none
    | some (f, cap') =>
      some (.ok (f, cap', reachable_in_residual ⟨st.nodes, cap'⟩ source, ⟨st.nodes, cap'⟩))
  else some (.error "source o sink no estan en los nodos del grafo")

/-- When the run loop returns, the BFS on the final residual finds no
augmenting path above `EPS`. -/
theorem mfRunLoop_post (nodes : List ℕ) (s t : ℕ) :
    ∀ (fuel : ℕ) (cap : CapT) (acc f : ℚ) (capF : CapT),
      mfRunLoop nodes s t fuel cap acc = some (f, capF) →
      (mfBFS ⟨nodes, capF⟩ s t).1 ≤ eps
  | 0, cap, acc, f, capF, h => Option.noConfusion h
  | fuel + 1, cap, acc, f, capF, h => by
    rw [mfRunLoop] at h
    by_cases hle : (mfBFS ⟨nodes, cap⟩ s t).1 ≤ eps
    · rw [if_pos hle] at h
      obtain ⟨_, rfl⟩ : f = acc ∧ capF = cap := by
        have := Option.some.inj h
        exact ⟨(Prod.mk.injEq _ _ _ _ ▸ this).1.symm, (Prod.mk.injEq _ _ _ _ ▸ this).2.symm⟩
      exact hle
    · rw [if_neg hle] at h
      exact mfRunLoop_post nodes s t fuel _ _ f capF h

end MaxFlow

/-- **C10.** `MaxFlow.run` mutates the stored capacity dict in place and
returns that same dict as the residual (`residual = st1.cap` below); a
second `run` on the same instance therefore starts from the leftover
residual, and with the same source and sink it finds no augmenting path
above `EPS`, returning a total flow of `0` and leaving the instance
unchanged. -/
theorem C10_run_residual_inplace (st : MaxFlow.MFState) (s t : ℕ) (fuel : ℕ)
    (f1 : ℚ) (cap1 : MaxFlow.CapT) (S1 : List ℕ) (st1 : MaxFlow.MFState)
    (h : MaxFlow.run st s t fuel = some (.ok (f1, cap1, S1, st1)))
    (fuel' : ℕ) (hf : 1 ≤ fuel') :
    cap1 = st1.cap ∧
    ∃ S', MaxFlow.run st1 s t fuel' = some (.ok (0, st1.cap, S', st1)) := by
  unfold MaxFlow.run at h
  by_cases hmem : s ∈ st.nodes ∧ t ∈ st.nodes
  · rw [if_pos hmem] at h
    cases hloop : MaxFlow.mfRunLoop st.nodes s t fuel st.cap 0 with
    | none => rw [hloop] at h; exact Option.noConfusion h
    | some p =>
      obtain ⟨f, cap'⟩ := p
      rw [hloop] at h
      have hinj := Except.ok.inj (Option.some.inj h)
      injection hinj with h1 hrest
      injection hrest with h2 hrest2
      injection hrest2 with h3 h4
      subst h1
      subst h2
      subst h3
      subst h4
      refine ⟨rfl, ?_⟩
      obtain ⟨g, rfl⟩ : ∃ g, fuel' = g + 1 := ⟨fuel' - 1, by omega⟩
      refine ⟨MaxFlow.reachable_in_residual ⟨st.nodes, cap'⟩ s, ?_⟩
      unfold MaxFlow.run
      rw [if_pos hmem]
      have hbfs := MaxFlow.mfRunLoop_post st.nodes s t fuel st.cap 0 _ cap' hloop
      rw [MaxFlow.mfRunLoop]
      rw [if_pos hbfs]
  · rw [if_neg hmem] at h
    exact Except.noConfusion (Option.some.inj h)

/-- Witness for C10: on the two-node network with one capacity-3 edge, the
first run pushes flow 3 and leaves the residual `{0: {1: 0}, 1: {0: 3}}`;
re-running the same instance returns flow 0 on that leftover residual. -/
theorem C10_witness :
    ∃ S', MaxFlow.run ⟨[0, 1], [(0, [(1, (0 : ℚ))]), (1, [(0, 3)])]⟩ 0 1 1 =
      some (.ok (0, [(0, [(1, (0 : ℚ))]), (1, [(0, 3)])], S',
        ⟨[0, 1], [(0, [(1, (0 : ℚ))]), (1, [(0, 3)])]⟩)) := by
  have h : MaxFlow.run ⟨[0, 1], [(0, [(1, (3 : ℚ))]), (1, [])]⟩ 0 1 5 =
      some (.ok (3, [(0, [(1, (0 : ℚ))]), (1, [(0, 3)])], [0],
        ⟨[0, 1], [(0, [(1, (0 : ℚ))]), (1, [(0, 3)])]⟩)) := by
    with_unfolding_all rfl
  exact (C10_run_residual_inplace _ 0 1 5 3 _ [0] _ h 1 le_rfl).2

/-! ## `FloydWarshall` (`floyd_algor.py`): all-pairs matrices and
`rebuild_path`. -/

namespace FloydWarshall

/-- The pair of dense matrices of the engine, as total functions on matrix
indices (entries outside `[0, n)` keep the initial defaults and are never
read by the code). -/
structure FWMat where
  d : ℕ → ℕ → Cost
  nxt : ℕ → ℕ → Option ℕ

/-- `self.index = {n: i for i, n in enumerate(self.nodes)}`: a duplicated
node id keeps the *last* index. `none` models a failed `.get`. -/
def fwIndexOf : List ℕ → ℕ → Option ℕ
  | [], _ => none
  | y :: ys, x =>
    match fwIndexOf ys x with
    | some i => some (i + 1)
    | none => if y = x then some 0 else none

/-- Point update of a matrix. -/
def upd2 {α : Type _} (f : ℕ → ℕ → α) (i j : ℕ) (a : α) : ℕ → ℕ → α :=
  Function.update f i (Function.update (f i) j a)

/-- Loading one edge in `__init__`: skip endpoints not in the index, keep
the minimum parallel weight, record the first hop. -/
def fwLoadEdge (nodes : List ℕ) (M : FWMat) (e : BFEdge) : FWMat :=
  match fwIndexOf nodes e.1, fwIndexOf nodes e.2.1 with
  | some i, some j =>
    if (e.2.2 : Cost) < M.d i j then
      ⟨upd2 M.d i j (e.2.2 : Cost), upd2 M.nxt i j (some e.2.1)⟩
    else M
  | _, _ => M

/-- The matrices after `__init__`: `0` diagonal (with `next[i][i] =
nodes[i]`), `inf` elsewhere, then the edges folded in. -/
def initMat (nodes : List ℕ) (edges : List BFEdge) : FWMat :=
  let n := nodes.length
  edges.foldl (fwLoadEdge nodes)
    ⟨fun i j => if i < n ∧ i = j then 0 else ⊤,
     fun i j => if i < n ∧ i = j then nodes.get? i else none⟩

/-- One inner step of `run` at fixed `k`, row `i` (with the hoisted
`dik = dist[i][k]` read at the start of the row, while `dist[k][j]` and
`next[i][k]` are read live): relax column `j`. -/
def fwStepJ (k i : ℕ) (dik : Cost) (M : FWMat) (j : ℕ) : FWMat :=
  let alt := dik + M.d k j
  if alt < M.d i j then ⟨upd2 M.d i j alt, upd2 M.nxt i j (M.nxt i k)⟩ else M

/-- One row of `run`: skip when `dik` is `inf` (the `continue`), else relax
all columns. -/
def fwRowI (n k : ℕ) (M : FWMat) (i : ℕ) : FWMat :=
  let dik := M.d i k
  if dik = ⊤ then M else (List.range n).foldl (fwStepJ k i dik) M

/-- One round of `run` (one intermediate index `k`): all rows. -/
def fwRoundK (n : ℕ) (M : FWMat) (k : ℕ) : FWMat :=
  (List.range n).foldl (fwRowI n k) M

/-- The negative-cycle check of `run`: some diagonal entry went below 0. -/
def fwNegCheck (n : ℕ) (M : FWMat) : Bool :=
  (List.range n).any fun i => decide (M.d i i < 0)

/-- `FloydWarshall.run()`: the triple loop over `k, i, j` followed by the
diagonal negative-cycle check. -/
def run (nodes : List ℕ) (edges : List BFEdge) : Except String FWMat :=
  let n := nodes.length
  let M := (List.range n).foldl (fwRoundK n) (initMat nodes edges)
  if fwNegCheck n M then .error "Ciclo negativo detectado" else .ok M

/-- `FloydWarshall.distance(src, dst)`: `inf` for unknown nodes, else the
matrix entry. -/
def distance (nodes : List ℕ) (M : FWMat) (src dst : ℕ) : Cost :=
  match fwIndexOf nodes src, fwIndexOf nodes dst with
  | some i, some j => M.d i j
  | _, _ => ⊤

/-- One observation of the `rebuild_path` loop body at the current cursor
`src`: `none` when the loop exits now because `src = dst` or the walk hits a
missing entry or an unknown node, `some src'` when it continues to `src'`.
-/
def rpStep (nodes : List ℕ) (M : FWMat) (j dst : ℕ) (src : ℕ) : Option ℕ :=
  if src = dst then none
  else
    match fwIndexOf nodes src with
    | none => none
    | some i =>
      match M.nxt i j with
      | none => none
      | some s' => some s'

/-- The fuelled `while src != dst` loop of `rebuild_path`.  The result is
`none` when the fuel runs out (the Python loop is still running), and
`some r` when the loop exits: `r` is the accumulated path, `[]` for a
missing next hop, and the `.error`-like `none` inner case of an unknown
`src` (a Python `KeyError`) is modelled by `some (.error ())`. -/
def rebuildGo (nodes : List ℕ) (M : FWMat) (j dst : ℕ) :
    ℕ → ℕ → List ℕ → Option (Except Unit (List ℕ))
  | 0, _, _ => none
  | fuel + 1, src, path =>
    if src = dst then some (.ok path)
    else
      match fwIndexOf nodes src with
      | none => some (.error ())
      | some i =>
        match M.nxt i j with
        | none => some (.ok [])
        | some s' => rebuildGo nodes M j dst fuel s' (path ++ [s'])

/-- `FloydWarshall.rebuild_path(src, dst)` with fuel: unknown endpoints and
a missing first hop give `[]`, else the walk loop from `path = [src]`. -/
def rebuild_path (nodes : List ℕ) (M : FWMat) (fuel : ℕ) (src dst : ℕ) :
    Option (Except Unit (List ℕ)) :=
  match fwIndexOf nodes src, fwIndexOf nodes dst with
  | some i, some j =>
    if M.nxt i j = none then some (.ok [])
    else rebuildGo nodes M j dst fuel src [src]
  | _, _ => some (.ok [])

end FloydWarshall

namespace FloydWarshall

/-- Iterating the loop cursor: `none` once the loop has exited (reaching
`dst`, an unknown node, or a missing next hop), `some src` while it is still
running at cursor `src`. -/
def rpIter (nodes : List ℕ) (M : FWMat) (j dst : ℕ) : ℕ → ℕ → Option ℕ
  | 0, src => some src
  | m + 1, src =>
    match rpStep nodes M j dst src with
    | none => none
    | some s' => rpIter nodes M j dst m s'

/-- The loop terminates (for some fuel) exactly when the iterated cursor
exits after finitely many steps. -/
theorem rebuildGo_terminates_iff (nodes : List ℕ) (M : FWMat) (j dst : ℕ)
    (src : ℕ) (path : List ℕ) :
    (∃ fuel r, rebuildGo nodes M j dst fuel src path = some r) ↔
    (∃ m, rpIter nodes M j dst m src = none) := by
  constructor
  · rintro ⟨fuel, r, hr⟩
    induction fuel generalizing src path with
    | zero => exact Option.noConfusion hr
    | succ fuel ih =>
      rw [rebuildGo] at hr
      by_cases hdst : src = dst
      · refine ⟨1, ?_⟩
        rw [rpIter, rpStep, if_pos hdst]
      · rw [if_neg hdst] at hr
        cases hidx : fwIndexOf nodes src with
        | none =>
          refine ⟨1, ?_⟩
          rw [rpIter, rpStep, if_neg hdst, hidx]
        | some i =>
          rw [hidx] at hr
          replace hr : (match M.nxt i j with
            | none => some (Except.ok [])
            | some s0 => rebuildGo nodes M j dst fuel s0 (path ++ [s0])) = some r := hr
          cases hnxt : M.nxt i j with
          | none =>
            refine ⟨1, ?_⟩
            rw [rpIter, rpStep, if_neg hdst, hidx]
            show (match (match M.nxt i j with
                | none => (none : Option ℕ)
                | some s0 => some s0) with
              | none => (none : Option ℕ)
              | some s1 => rpIter nodes M j dst 0 s1) = none
            rw [hnxt]
          | some s' =>
            rw [hnxt] at hr
            replace hr : rebuildGo nodes M j dst fuel s' (path ++ [s']) = some r := hr
            obtain ⟨m, hm⟩ := ih s' (path ++ [s']) hr
            refine ⟨m + 1, ?_⟩
            rw [rpIter, rpStep, if_neg hdst, hidx]
            show (match (match M.nxt i j with
                | none => (none : Option ℕ)
                | some s0 => some s0) with
              | none => (none : Option ℕ)
              | some s1 => rpIter nodes M j dst m s1) = none
            rw [hnxt]
            exact hm
  · rintro ⟨m, hm⟩
    induction m generalizing src path with
    | zero => exact Option.noConfusion hm
    | succ m ih =>
      rw [rpIter] at hm
      cases hstep : rpStep nodes M j dst src with
      | none =>
        rw [rpStep] at hstep
        by_cases hdst : src = dst
        · exact ⟨1, .ok path, by rw [rebuildGo, if_pos hdst]⟩
        · rw [if_neg hdst] at hstep
          cases hidx : fwIndexOf nodes src with
          | none => exact ⟨1, .error (), by rw [rebuildGo, if_neg hdst, hidx]⟩
          | some i =>
            rw [hidx] at hstep
            replace hstep : (match M.nxt i j with
              | none => (none : Option ℕ)
              | some s0 => some s0) = (none : Option ℕ) := hstep
            cases hnxt : M.nxt i j with
            | none =>
              refine ⟨1, .ok [], ?_⟩
              rw [rebuildGo, if_neg hdst, hidx]
              show (match M.nxt i j with
                | none => some (Except.ok [])
                | some s0 => rebuildGo nodes M j dst 0 s0 (path ++ [s0])) =
                  some (Except.ok [])
              rw [hnxt]
            | some s0 =>
              rw [hnxt] at hstep
              exact Option.noConfusion (hstep : (some s0 : Option ℕ) = none)
      | some s' =>
        rw [hstep] at hm
        replace hm : rpIter nodes M j dst m s' = none := hm
        rw [rpStep] at hstep
        by_cases hdst : src = dst
        · rw [if_pos hdst] at hstep
          exact Option.noConfusion hstep
        · rw [if_neg hdst] at hstep
          cases hidx : fwIndexOf nodes src with
          | none =>
            rw [hidx] at hstep
            exact Option.noConfusion hstep
          | some i =>
            rw [hidx] at hstep
            replace hstep : (match M.nxt i j with
              | none => (none : Option ℕ)
              | some s0 => some s0) = some s' := hstep
            cases hnxt : M.nxt i j with
            | none =>
              rw [hnxt] at hstep
              exact Option.noConfusion (hstep : (none : Option ℕ) = some s')
            | some s'' =>
              rw [hnxt] at hstep
              have heq : s'' = s' :=
                Option.some.inj (hstep : (some s'' : Option ℕ) = some s')
              rw [heq] at hnxt
              obtain ⟨fuel, r, hr⟩ := ih s' (path ++ [s']) hm
              refine ⟨fuel + 1, r, ?_⟩
              rw [rebuildGo, if_neg hdst, hidx]
              show (match M.nxt i j with
                | none => some (Except.ok [])
                | some s0 => rebuildGo nodes M j dst fuel s0 (path ++ [s0])) = some r
              rw [hnxt]
              exact hr

end FloydWarshall

/-- The corrupted next-hop matrix of the C9 counterexample:
`next[0][1] = 0` (a self-loop back to the start), everything else absent. -/
def c9Mat : FloydWarshall.FWMat :=
  ⟨fun _ _ => 0, fun i j => if i = 0 ∧ j = 1 then some 0 else none⟩

/-- The C9 loop on `c9Mat` never leaves cursor 0. -/
theorem c9_diverges : ∀ (fuel : ℕ) (path : List ℕ),
    FloydWarshall.rebuildGo [0, 1] c9Mat 1 1 fuel 0 path = none
  | 0, _ => rfl
  | fuel + 1, path => by
    rw [FloydWarshall.rebuildGo]
    rw [if_neg (by norm_num)]
    exact c9_diverges fuel (path ++ [0])

/-- **C9, counterexample.** The claim says `rebuild_path` terminates for
*every* next-hop matrix contents, including a corrupted chain.  On the
matrix whose (0,1) next hop points back to node 0 itself, the walk loops
forever: no amount of fuel makes `rebuild_path 0 1` return. -/
theorem C9_counterexample :
    ¬ ∃ fuel r, FloydWarshall.rebuild_path [0, 1] c9Mat fuel 0 1 = some r := by
  rintro ⟨fuel, r, hr⟩
  have hr' : FloydWarshall.rebuildGo [0, 1] c9Mat 1 1 fuel 0 [0] = some r := hr
  rw [c9_diverges fuel [0]] at hr'
  exact Option.noConfusion hr'

/-- **C9, amended.** `rebuild_path(src, dst)` guards only against a `None`
entry, not against a cyclic corrupted chain: for known `src` and `dst` with
a present first hop, the loop terminates (for sufficient fuel) exactly when
the iterated next-hop cursor reaches `dst`, an unknown node, or a missing
entry after finitely many steps; when the chain cycles (as in `c9Mat`), it
never returns.  Unknown endpoints or a missing first hop return `[]` at
once. -/
theorem C9_rebuild_path_termination (nodes : List ℕ) (M : FloydWarshall.FWMat)
    (src dst : ℕ) :
    (∃ fuel r, FloydWarshall.rebuild_path nodes M fuel src dst = some r) ↔
    (∀ i j, FloydWarshall.fwIndexOf nodes src = some i →
      FloydWarshall.fwIndexOf nodes dst = some j → M.nxt i j ≠ none →
      ∃ m, FloydWarshall.rpIter nodes M j dst m src = none) := by
  unfold FloydWarshall.rebuild_path
  cases hi : FloydWarshall.fwIndexOf nodes src with
  | none =>
    simp only [hi]
    constructor
    · intro _ i j hcon
      exact Option.noConfusion hcon
    · intro _
      exact ⟨0, .ok [], rfl⟩
  | some i =>
    cases hj : FloydWarshall.fwIndexOf nodes dst with
    | none =>
      simp only [hi, hj]
      constructor
      · intro _ i' j' _ hcon
        exact Option.noConfusion hcon
      · intro _
        exact ⟨0, .ok [], rfl⟩
    | some j =>
      simp only [hi, hj]
      by_cases hnone : M.nxt i j = none
      · have hcond : (M.nxt i j = none) = True := eq_true hnone
        simp only [hcond, if_true]
        constructor
        · intro _ i' j' hi' hj' hne
          obtain rfl := Option.some.inj hi'
          obtain rfl := Option.some.inj hj'
          exact absurd hnone hne
        · intro _
          exact ⟨0, .ok [], rfl⟩
      · have hcond : (M.nxt i j = none) = False := eq_false hnone
        simp only [hcond, if_false]
        constructor
        · intro hex i' j' hi' hj' _
          obtain rfl := Option.some.inj hi'
          obtain rfl := Option.some.inj hj'
          exact (FloydWarshall.rebuildGo_terminates_iff nodes M j dst src [src]).mp hex
        · intro hall
          exact (FloydWarshall.rebuildGo_terminates_iff nodes M j dst src [src]).mpr
            (hall i j rfl rfl hnone)

/-- A well-formed next-hop matrix for the C9 witness: `next[0][1] = 1`. -/
def c9GoodMat : FloydWarshall.FWMat :=
  ⟨fun _ _ => 0, fun i j => if i = 0 ∧ j = 1 then some 1 else none⟩

/-- Witness for C9 (amended) on `c9GoodMat`: the rebuild terminates (fuel 3
suffices, returning [0, 1]), so by the theorem the iterated cursor exits
after finitely many steps. -/
theorem C9_witness :
    ∃ m, FloydWarshall.rpIter [0, 1] c9GoodMat 1 1 m 0 = none :=
  (C9_rebuild_path_termination [0, 1] c9GoodMat 0 1).mp
    ⟨3, .ok [0, 1], by with_unfolding_all rfl⟩ 0 1 rfl rfl
    (by intro hcon; exact Option.noConfusion ((rfl : c9GoodMat.nxt 0 1 = some 1) ▸ hcon))

/-! ## `MaxRoutePlanner` (`Max_recorrido/max_algor.py`).

The planner's `random.Random` source is modelled as a stream
`rng : ℕ → ℕ` with a draw counter: the `t`-th `rng.choice(lst)` picks
`lst[rng t % len lst]`.  `copy.deepcopy(real_burro)` is a value copy; the
caller's carrier is carried through the state unchanged (field `real`) to
state the frame property C7 — no branch of the loop ever writes it. -/

namespace MaxRoutePlanner

/-- Python `set.add` on an insertion-ordered list. -/
def pySetAdd {α : Type _} [DecidableEq α] (l : List α) (x : α) : List α :=
  if x ∈ l then l else l ++ [x]

/-- `self._hgs_by_galaxy`: an insertion-ordered dict from galaxy id to the
list of hypergiant star ids, built with `setdefault(...).append(...)` over
`collect_hypergiants`. -/
def alAppendHG (k : Option ℕ) (x : ℕ) : List (Option ℕ × List ℕ) → List (Option ℕ × List ℕ)
  | [] => [(k, [x])]
  | (k', xs) :: t => if k' = k then (k', xs ++ [x]) :: t else (k', xs) :: alAppendHG k x t

/-- `collect_hypergiants(loader)` from `hypergiants.py`: all stars flagged
`hypergiant`, as `(star_id, galaxy_id)` (the label is presentational). -/
def collect_hypergiants (L : Loader) : List (ℕ × Option ℕ) :=
  ((allStars L).filter (fun s => s.hypergiant)).map (fun s => (s.id, s.galaxyId))

/-- The planner's `_hgs_by_galaxy` dict. -/
def hgsByGalaxy (L : Loader) : List (Option ℕ × List ℕ) :=
  (collect_hypergiants L).foldl (fun acc hg => alAppendHG hg.2 hg.1 acc) []

/-- `self._galaxy_of(star_id)`. -/
def galaxy_of (L : Loader) (sid : ℕ) : Option ℕ :=
  match find_star_by_id L sid with
  | some s => s.galaxyId
  | none => none

/-- The adjacency dict built in `plan_max_route`:
`adj.setdefault(u, []).append((v, w))` over the edge list keeps, for each
`u`, the `(v, w)` pairs in edge order. -/
def adjOf (edges : List BFEdge) (u : ℕ) : List (ℕ × ℚ) :=
  (edges.filter (fun e => e.1 = u)).map (fun e => (e.2.1, e.2.2))

/-- `self._edge_distance(adj, u, v)`: the first matching pair wins. -/
def edge_distance (adj : ℕ → List (ℕ × ℚ)) (u v : ℕ) : Option ℚ :=
  ((adj u).find? (fun p => p.1 = v)).map (fun p => p.2)

/-- `is_hypergiant(self._star_index[current])` with the defensive `.get`:
an id absent from the index counts as not hypergiant (the planner only ever
queries ids present in the index). -/
def isHGat (L : Loader) (sid : ℕ) : Bool :=
  match find_star_by_id L sid with
  | some s => s.hypergiant
  | none => false

/-- The first candidate with minimal distance key, as Python's stable
`sort(key=lambda x: x[0])` followed by taking the head. -/
def minByDist : (ℚ × ℕ × Bool) → List (ℚ × ℕ × Bool) → (ℚ × ℕ × Bool)
  | best, [] => best
  | best, c :: t => minByDist (if c.1 < best.1 then c else best) t

/-- `self._choose_next_in_galaxy`: among unvisited same-galaxy neighbours
within the remaining lifespan, prefer the nearest hypergiant, else the
nearest node. -/
def choose_next (L : Loader) (current : ℕ) (current_galaxy : Option ℕ)
    (adj : ℕ → List (ℕ × ℚ)) (visited : List ℕ) (burro : Burro) : Option ℕ :=
  let candidates := (adj current).filterMap (fun p =>
    if p.1 ∈ visited then none
    else if galaxy_of L p.1 ≠ current_galaxy then none
    else if burro.vida_restante < p.2 then none
    else
      match find_star_by_id L p.1 with
      | none => none
      | some s => some (p.2, p.1, s.hypergiant))
  match candidates with
  | [] => none
  | c :: rest =>
    let hgs := (c :: rest).filter (fun x => x.2.2)
    match hgs with
    | h :: hrest => some (minByDist h hrest).2.1
    | [] => some (minByDist c rest).2.1

/-- `rng.choice(lst)` at draw index `t`. -/
def rngChoice {α : Type _} (rng : ℕ → ℕ) (t : ℕ) (lst : List α) (dflt : α) : α :=
  lst.getD (rng t % lst.length) dflt

/-- `self._try_hyperjump(rng, current_galaxy, visited_galaxies)`: pick an
unvisited different galaxy with at least one hypergiant, then a landing
hypergiant in it; returns the draw counter after the call. -/
def try_hyperjump (hbg : List (Option ℕ × List ℕ)) (rng : ℕ → ℕ) (t : ℕ)
    (current_galaxy : Option ℕ) (visited : List (Option ℕ)) :
    Option (Option ℕ × ℕ) × ℕ :=
  let candidates := (hbg.filter (fun p =>
    p.1 ≠ current_galaxy ∧ p.1 ∉ visited ∧ p.2 ≠ [])).map (fun p => p.1)
  match candidates with
  | [] => (none, t)
  | c :: rest =>
    let dest := rngChoice rng t (c :: rest) none
    let landing_list := match hbg.find? (fun p => p.1 = dest) with
      | some p => p.2
      | none => []
    match landing_list with
    | [] => (none, t + 1)
    | l :: lrest => (some (dest, rngChoice rng (t + 1) (l :: lrest) 0), t + 2)

/-- A recap row (`paso`: move or buff).  The presentational `detalle`
string is omitted; `estrella` is the star label (or `Star <id>`). -/
inductive RecapStep where
  | tramo
  | buff
deriving DecidableEq, Repr

/-- One row of the recap log. -/
structure RecapRow where
  galaxy_id : Option ℕ
  paso : RecapStep
  estrella : String
  es_hipergigante : Bool
  delta_energia : ℚ
  delta_pasto : ℚ
  delta_vida : ℚ
deriving DecidableEq, Repr

/-- An itinerary segment. -/
structure Segment where
  galaxy_id : Option ℕ
  entry_star : ℕ
  path : List ℕ
  exit_hypergiant : Option ℕ
  jump_to : Option (Option ℕ × ℕ)
deriving DecidableEq, Repr

/-- The loop state of `plan_max_route`.  `real` is the caller's carrier
object (never written); `burro` is the deep-copied clone the planner
mutates. -/
structure PlanState where
  real : Burro
  burro : Burro
  current : ℕ
  current_galaxy : Option ℕ
  visited_stars : List ℕ
  visited_galaxies : List (Option ℕ)
  itinerary : List Segment
  segment : Segment
  recap : List RecapRow
  rngIdx : ℕ

/-- `self._mk_recap_row_move`. -/
def mk_recap_row_move (L : Loader) (galaxy_id : Option ℕ) (to_star : ℕ)
    (before after : Burro) : RecapRow :=
  let lab := match find_star_by_id L to_star with
    | some s => s.label
    | none => "Star " ++ toString to_star
  ⟨galaxy_id, RecapStep.tramo, lab, isHGat L to_star,
    after.energia - before.energia, after.pasto_kg - before.pasto_kg,
    after.vida_restante - before.vida_restante⟩

/-- `self._mk_recap_row_buff`. -/
def mk_recap_row_buff (L : Loader) (galaxy_id : Option ℕ) (from_star : ℕ)
    (before after : Burro) : RecapRow :=
  let lab := match find_star_by_id L from_star with
    | some s => s.label
    | none => "Star " ++ toString from_star
  ⟨galaxy_id, RecapStep.buff, lab, true,
    after.energia - before.energia, after.pasto_kg - before.pasto_kg,
    after.vida_restante - before.vida_restante⟩

/-- The shared bookkeeping of a successful hyperjump: apply the boost to
the clone, log the buff row, close the current segment with the jump
target, move to the landing hypergiant in the destination galaxy, and open
a fresh segment there.  `t'` is the rng counter after the jump draws. -/
def doJump (L : Loader) (st : PlanState) (dest : Option ℕ) (landing : ℕ)
    (t' : ℕ) : PlanState :=
  let burro' := apply_hypergiant_effects st.burro
  let row := mk_recap_row_buff L st.current_galaxy st.current st.burro burro'
  let seg' := { st.segment with exit_hypergiant := some st.current,
                                jump_to := some (dest, landing) }
  { st with
    burro := burro'
    recap := st.recap ++ [row]
    itinerary := st.itinerary ++ [seg']
    current_galaxy := dest
    visited_galaxies := pySetAdd st.visited_galaxies dest
    current := landing
    visited_stars := if landing ∈ st.visited_stars then st.visited_stars
      else st.visited_stars ++ [landing]
    segment := ⟨dest, landing, [landing], none, none⟩
    rngIdx := t' }

/-- One iteration of the `while hops < max_hops` loop.  `.inr` means the
loop hit a `break` (the current segment has just been appended); `.inl`
continues with the new state. -/
def planStep (L : Loader) (adj : ℕ → List (ℕ × ℚ)) (rng : ℕ → ℕ)
    (st : PlanState) : PlanState ⊕ PlanState :=
  match choose_next L st.current st.current_galaxy adj st.visited_stars st.burro with
  | none =>
    if isHGat L st.current then
      let tj := try_hyperjump (hgsByGalaxy L) rng st.rngIdx st.current_galaxy
        st.visited_galaxies
      match tj.1 with
      | none => .inr { st with itinerary := st.itinerary ++ [st.segment], rngIdx := tj.2 }
      | some dl => .inl (doJump L st dl.1 dl.2 tj.2)
    else .inr { st with itinerary := st.itinerary ++ [st.segment] }
  | some next =>
    match edge_distance adj st.current next with
    | none => .inr { st with itinerary := st.itinerary ++ [st.segment] }
    | some dist =>
      if st.burro.vida_restante ≤ 0 ∨ st.burro.vida_restante - dist < 0 then
        .inr { st with itinerary := st.itinerary ++ [st.segment] }
      else
        let burro' := st.burro.viajar dist
        let row := mk_recap_row_move L st.current_galaxy next st.burro burro'
        let st' := { st with burro := burro', recap := st.recap ++ [row],
                             current := next,
                             visited_stars := pySetAdd st.visited_stars next,
                             segment := { st.segment with
                               path := st.segment.path ++ [next] } }
        if isHGat L next then
          let tj := try_hyperjump (hgsByGalaxy L) rng st'.rngIdx st'.current_galaxy
            st'.visited_galaxies
          match tj.1 with
          | none => .inl { st' with rngIdx := tj.2 }
          | some dl => .inl (doJump L st' dl.1 dl.2 tj.2)
        else .inl st'

/-- The fuelled loop (`hops < max_hops`); the Boolean reports whether the
loop ended in a `break` (current segment already appended) or by exhausting
the hop budget. -/
def planLoop (L : Loader) (adj : ℕ → List (ℕ × ℚ)) (rng : ℕ → ℕ) :
    ℕ → PlanState → PlanState × Bool
  | 0, st => (st, false)
  | fuel + 1, st =>
    match planStep L adj rng st with
    | .inr st' => (st', true)
    | .inl st' => planLoop L adj rng fuel st'

/-- The result dictionary of `plan_max_route` (`sim_burro` flattened into
the four reported fields), plus the caller's carrier after the run. -/
structure PlanResult where
  per_galaxy : List Segment
  visited_stars : List ℕ
  visited_galaxies : List (Option ℕ)
  life_left_ly : ℚ
  sim_energia : ℚ
  sim_pasto : ℚ
  sim_edad : ℚ
  sim_vida : ℚ
  recap : List RecapRow
deriving Repr

/-- `MaxRoutePlanner.plan_max_route(start_star_id, real_burro,
blocked_paths, rng, max_hops)`: deep-copy the carrier, build the graph with
`graph_utils.build_graph_from_loader`, run the loop, then the post-loop
fixup.  The `is not segment` identity test guards only the `if` branch: on
a `break` exit the loop has just appended the very segment object, so the
`if` fails but the `elif segment["path"]` branch fires (the open segment's
path always holds at least its entry star) and appends the *same* segment
a second time.  A fuel exit never has the open segment as the last element
(each jump rebinds `segment` to a fresh dict after appending the old one),
so there the segment is appended exactly once — via the `if` when the
itinerary is nonempty, else via the `elif` when the path is nonempty. -/
def plan_max_route (L : Loader) (start_star_id : ℕ) (real_burro : Burro)
    (blocked : List (ℕ × ℕ)) (rng : ℕ → ℕ) (max_hops : ℕ) :
    Except String (PlanResult × Burro) :=
  let burro := real_burro
  let adj := adjOf (GraphUtils.build_graph_from_loader L blocked).2
  if (find_star_by_id L start_star_id).isSome then
    let g := galaxy_of L start_star_id
    let st0 : PlanState :=
      ⟨real_burro, burro, start_star_id, g, [start_star_id], [g], [],
        ⟨g, start_star_id, [start_star_id], none, none⟩, [], 0⟩
    let res := planLoop L adj rng max_hops st0
    let stF := res.1
    let itinFinal :=
      if res.2 then
        if stF.segment.path ≠ [] then stF.itinerary ++ [stF.segment]
        else stF.itinerary
      else if stF.itinerary ≠ [] then stF.itinerary ++ [stF.segment]
      else if stF.segment.path ≠ [] then stF.itinerary ++ [stF.segment]
      else stF.itinerary
    .ok (⟨itinFinal, (itinFinal.map Segment.path).flatten, stF.visited_galaxies,
      stF.burro.vida_restante, stF.burro.energia, stF.burro.pasto_kg,
      stF.burro.edad_actual, stF.burro.vida_restante, stF.recap⟩, stF.real)
  else .error "start_star_id no existe"

end MaxRoutePlanner

namespace MaxRoutePlanner

/-- No branch of the loop body writes the caller's carrier. -/
theorem planStep_real (L : Loader) (adj : ℕ → List (ℕ × ℚ)) (rng : ℕ → ℕ)
    (st : PlanState) (s : PlanState) :
    (planStep L adj rng st = .inl s ∨ planStep L adj rng st = .inr s) →
    s.real = st.real := by
  intro h
  unfold planStep doJump at h
  rcases h with h | h <;>
  · dsimp only at h
    repeat' split at h
    all_goals
      first
      | exact Sum.noConfusion h
      | (injection h with h'; subst h'; rfl)

/-- The loop never writes the caller's carrier. -/
theorem planLoop_real (L : Loader) (adj : ℕ → List (ℕ × ℚ)) (rng : ℕ → ℕ) :
    ∀ (fuel : ℕ) (st : PlanState), (planLoop L adj rng fuel st).1.real = st.real
  | 0, st => rfl
  | fuel + 1, st => by
    rw [planLoop]
    cases hstep : planStep L adj rng st with
    | inl st' =>
      rw [planLoop_real L adj rng fuel st']
      exact planStep_real L adj rng st st' (Or.inl hstep)
    | inr st' =>
      exact planStep_real L adj rng st st' (Or.inr hstep)

end MaxRoutePlanner

/-- **C7.** `plan_max_route` never mutates the caller's carrier: whenever it
returns normally, the caller's original instance (threaded through the
state as `real`, while every mutation targets the deep-copied clone) still
holds its pre-call field values. -/
theorem C7_planner_preserves_carrier (L : Loader) (start : ℕ) (real_burro : Burro)
    (blocked : List (ℕ × ℕ)) (rng : ℕ → ℕ) (max_hops : ℕ)
    (res : MaxRoutePlanner.PlanResult) (b' : Burro)
    (h : MaxRoutePlanner.plan_max_route L start real_burro blocked rng max_hops =
      .ok (res, b')) :
    b' = real_burro := by
  unfold MaxRoutePlanner.plan_max_route at h
  by_cases hidx : (find_star_by_id L start).isSome
  · rw [if_pos hidx] at h
    have hinj := Except.ok.inj h
    have hreal := congrArg Prod.snd hinj
    dsimp only at hreal
    rw [← hreal]
    exact MaxRoutePlanner.planLoop_real L _ rng max_hops _
  · rw [if_neg hidx] at h
    exact Except.noConfusion h

/-- Witness for C7: a concrete plan (carrier lifespan 3, only edge costs 5,
so the loop breaks immediately and the post-loop fixup re-appends the
break-appended segment) returns normally with the caller's carrier
untouched. -/
theorem C7_witness :
    ∃ b', MaxRoutePlanner.plan_max_route testLoader 1
        (Burro.mk 40 Health.buena 3 5 5 8 3) [] (fun _ => 0) 10 =
      .ok (⟨[⟨some 1, 1, [1], none, none⟩, ⟨some 1, 1, [1], none, none⟩],
        [1, 1], [some 1], 3, 40, 3, 5, 3, []⟩, b') ∧
      b' = Burro.mk 40 Health.buena 3 5 5 8 3 := by
  have h : MaxRoutePlanner.plan_max_route testLoader 1
      (Burro.mk 40 Health.buena 3 5 5 8 3) [] (fun _ => 0) 10 =
      .ok (⟨[⟨some 1, 1, [1], none, none⟩, ⟨some 1, 1, [1], none, none⟩],
        [1, 1], [some 1], 3, 40, 3, 5, 3, []⟩,
        Burro.mk 40 Health.buena 3 5 5 8 3) := by
    with_unfolding_all rfl
  exact ⟨_, h, C7_planner_preserves_carrier _ _ _ _ _ _ _ _ h⟩

namespace MaxRoutePlanner

/-- `minByDist` picks an element of the candidate list. -/
theorem minByDist_mem : ∀ (l : List (ℚ × ℕ × Bool)) (best : ℚ × ℕ × Bool),
    minByDist best l = best ∨ minByDist best l ∈ l
  | [], best => Or.inl rfl
  | c :: t, best => by
    rw [minByDist]
    rcases minByDist_mem t (if c.1 < best.1 then c else best) with h | h
    · rw [h]
      by_cases hcb : c.1 < best.1
      · rw [if_pos hcb]
        exact Or.inr (List.mem_cons_self _ _)
      · rw [if_neg hcb]
        exact Or.inl rfl
    · exact Or.inr (List.mem_cons_of_mem _ h)

/-- A chosen next star always has an entry in the adjacency row, so
`edge_distance` succeeds on it. -/
theorem choose_next_edge (L : Loader) (cur : ℕ) (g : Option ℕ)
    (adj : ℕ → List (ℕ × ℚ)) (vis : List ℕ) (b : Burro) (v : ℕ)
    (h : choose_next L cur g adj vis b = some v) :
    ∃ d, edge_distance adj cur v = some d := by
  unfold choose_next at h
  set f : ℕ × ℚ → Option (ℚ × ℕ × Bool) := fun p =>
    if p.1 ∈ vis then none
    else if galaxy_of L p.1 ≠ g then none
    else if b.vida_restante < p.2 then none
    else
      match find_star_by_id L p.1 with
      | none => none
      | some s => some (p.2, p.1, s.hypergiant) with hf
  have hmemf : ∀ x, x ∈ (adj cur).filterMap f → ∃ p, p ∈ adj cur ∧ p.1 = x.2.1 := by
    intro x hx
    obtain ⟨p, hp, hfp⟩ := List.mem_filterMap.mp hx
    refine ⟨p, hp, ?_⟩
    rw [hf] at hfp
    dsimp only at hfp
    split at hfp
    · exact Option.noConfusion hfp
    · split at hfp
      · exact Option.noConfusion hfp
      · split at hfp
        · exact Option.noConfusion hfp
        · split at hfp
          · exact Option.noConfusion hfp
          · rw [← Option.some.inj hfp]
  have hfinish : ∀ x, x ∈ (adj cur).filterMap f → x.2.1 = v →
      ∃ d, edge_distance adj cur v = some d := by
    intro x hx hxv
    obtain ⟨p, hp, hpeq⟩ := hmemf x hx
    have hsome : ((adj cur).find? (fun q => q.1 = v)).isSome := by
      rw [List.find?_isSome]
      exact ⟨p, hp, by rw [hpeq, hxv]; simp⟩
    obtain ⟨p', hp'⟩ := Option.isSome_iff_exists.mp hsome
    refine ⟨p'.2, ?_⟩
    unfold edge_distance
    rw [hp']
    rfl
  cases hcand : (adj cur).filterMap f with
  | nil =>
    rw [hcand] at h
    exact Option.noConfusion h
  | cons c rest =>
    rw [hcand] at h
    dsimp only at h
    cases hhgs : (c :: rest).filter (fun x => x.2.2) with
    | nil =>
      rw [hhgs] at h
      replace h : some (minByDist c rest).2.1 = some v := h
      have hx : minByDist c rest ∈ c :: rest := by
        rcases minByDist_mem rest c with h' | h'
        · rw [h']; exact List.mem_cons_self _ _
        · exact List.mem_cons_of_mem _ h'
      exact hfinish _ (hcand ▸ hx) (Option.some.inj h)
    | cons hh hrest =>
      rw [hhgs] at h
      replace h : some (minByDist hh hrest).2.1 = some v := h
      have hx : minByDist hh hrest ∈ hh :: hrest := by
        rcases minByDist_mem hrest hh with h' | h'
        · rw [h']; exact List.mem_cons_self _ _
        · exact List.mem_cons_of_mem _ h'
      have hx2 : minByDist hh hrest ∈ c :: rest :=
        List.mem_of_mem_filter (hhgs ▸ hx)
      exact hfinish _ (hcand ▸ hx2) (Option.some.inj h)

end MaxRoutePlanner

namespace MaxRoutePlanner

/-- With an exhausted lifespan, the first loop iteration always `break`s
with the segment appended and nothing else changed — provided the current
star is not a hypergiant with an eligible jump destination. -/
theorem planStep_zero_vida (L : Loader) (adj : ℕ → List (ℕ × ℚ)) (rng : ℕ → ℕ)
    (st : PlanState) (hvida : st.burro.vida_restante ≤ 0)
    (hstart : isHGat L st.current = false ∨
      (hgsByGalaxy L).filter (fun p => p.1 ≠ st.current_galaxy ∧
        p.1 ∉ st.visited_galaxies ∧ p.2 ≠ []) = []) :
    planStep L adj rng st = .inr { st with itinerary := st.itinerary ++ [st.segment] } := by
  unfold planStep
  cases hc : choose_next L st.current st.current_galaxy adj st.visited_stars st.burro with
  | some v =>
    dsimp only
    obtain ⟨d, hd⟩ := choose_next_edge L st.current st.current_galaxy adj
      st.visited_stars st.burro v hc
    rw [hd]
    dsimp only
    rw [if_pos (Or.inl hvida)]
  | none =>
    dsimp only
    cases hhg : isHGat L st.current with
    | false =>
      rw [if_neg Bool.false_ne_true]
    | true =>
      rcases hstart with hfalse | hempty
      · rw [hhg] at hfalse
        exact Bool.noConfusion hfalse
      · rw [if_pos rfl]
        have htj : try_hyperjump (hgsByGalaxy L) rng st.rngIdx st.current_galaxy
            st.visited_galaxies = (none, st.rngIdx) := by
          unfold try_hyperjump
          rw [hempty]
          rfl
        rw [htj]

end MaxRoutePlanner

/-- **C8, amended.** With zero remaining lifespan at the start,
`plan_max_route` terminates after its first iteration (`break`) with an
unchanged carrier snapshot; the itinerary however holds the single-node
start segment *twice*, because the post-loop fixup's `elif` re-appends the
segment the break path has just appended (so `visited_stars`, flattened
from the itinerary, lists the start node twice as well).  This holds
*provided* the start star is not a hypergiant from which a jump is
available (an unvisited different galaxy containing a hypergiant).  In that
excluded case the planner first jumps and buffs the (dead) clone, which the
counterexample exhibits. -/
theorem C8_zero_lifespan_plan (L : Loader) (start : ℕ) (real_burro : Burro)
    (blocked : List (ℕ × ℕ)) (rng : ℕ → ℕ) (max_hops : ℕ)
    (hvida : real_burro.vida_restante = 0)
    (hidx : (find_star_by_id L start).isSome)
    (hstart : MaxRoutePlanner.isHGat L start = false ∨
      (MaxRoutePlanner.hgsByGalaxy L).filter (fun p =>
        p.1 ≠ MaxRoutePlanner.galaxy_of L start ∧
        p.1 ∉ [MaxRoutePlanner.galaxy_of L start] ∧ p.2 ≠ []) = [])
    (hfuel : 1 ≤ max_hops) :
    MaxRoutePlanner.plan_max_route L start real_burro blocked rng max_hops =
      .ok (⟨[⟨MaxRoutePlanner.galaxy_of L start, start, [start], none, none⟩,
        ⟨MaxRoutePlanner.galaxy_of L start, start, [start], none, none⟩],
        [start, start], [MaxRoutePlanner.galaxy_of L start],
        real_burro.vida_restante, real_burro.energia, real_burro.pasto_kg,
        real_burro.edad_actual, real_burro.vida_restante, []⟩, real_burro) := by
  obtain ⟨g, rfl⟩ : ∃ g, max_hops = g + 1 := ⟨max_hops - 1, by omega⟩
  unfold MaxRoutePlanner.plan_max_route
  rw [if_pos hidx]
  dsimp only
  have hstep := MaxRoutePlanner.planStep_zero_vida L
    (MaxRoutePlanner.adjOf (GraphUtils.build_graph_from_loader L blocked).2) rng
    ⟨real_burro, real_burro, start, MaxRoutePlanner.galaxy_of L start, [start],
      [MaxRoutePlanner.galaxy_of L start], [],
      ⟨MaxRoutePlanner.galaxy_of L start, start, [start], none, none⟩, [], 0⟩
    (le_of_eq hvida) hstart
  rw [MaxRoutePlanner.planLoop, hstep]
  with_unfolding_all rfl

/-- First star of the C8 counterexample: a hypergiant, no links, galaxy 1. -/
def c8Star1 : StarData := ⟨1, "H1", ⟨0, 0⟩, [], true, some 1⟩

/-- Second star of the C8 counterexample: a hypergiant in galaxy 2. -/
def c8Star2 : StarData := ⟨2, "H2", ⟨9, 9⟩, [], true, some 2⟩

/-- Loader of the C8 counterexample. -/
def c8Loader : Loader := ⟨[⟨[c8Star1, c8Star2]⟩]⟩

/-- The C8 counterexample carrier: remaining lifespan exactly 0. -/
def c8Burro : Burro := ⟨40, Health.excelente, 3, 0, 5, 10, 0⟩

/-- **C8, counterexample.** The claim says a zero-lifespan start always
yields exactly one single-node segment and an unchanged snapshot.  Starting
on a hypergiant with an unvisited hypergiant galaxy available, the planner
hyperjumps before ever moving and the clone is buffed (food stock 3 becomes
6, energy 40 becomes 60), so the reported snapshot differs from the initial
field values; the itinerary gets three segments (the closed jump segment,
then the dead-end segment — appended once by the `break` and once more by
the post-loop `elif`). -/
theorem C8_counterexample :
    c8Burro.vida_restante = 0 ∧ c8Burro.pasto_kg = 3 ∧ c8Burro.energia = 40 ∧
    (MaxRoutePlanner.plan_max_route c8Loader 1 c8Burro [] (fun _ => 0) 10).toOption.map
      (fun p => (p.1.per_galaxy.length, p.1.sim_pasto, p.1.sim_energia)) =
      some (3, 6, 60) := by
  refine ⟨by with_unfolding_all rfl, by with_unfolding_all rfl,
    by with_unfolding_all rfl, ?_⟩
  with_unfolding_all rfl

/-- The single, non-hypergiant star of the C8 witness dataset. -/
def c8wStar : StarData := ⟨1, "S", ⟨0, 0⟩, [], false, some 1⟩

/-- Loader of the C8 witness. -/
def c8wLoader : Loader := ⟨[⟨[c8wStar]⟩]⟩

/-- The C8 witness carrier: remaining lifespan 0, otherwise healthy. -/
def c8wBurro : Burro := ⟨50, Health.buena, 4, 0, 2, 10, 0⟩

/-- Witness for the amended C8 on a one-star non-hypergiant dataset: the
plan holds the single-node segment `[1]` twice (break append plus post-loop
re-append) and the snapshot repeats the initial fields. -/
theorem C8_witness :
    MaxRoutePlanner.plan_max_route c8wLoader 1 c8wBurro [] (fun _ => 0) 5 =
      .ok (⟨[⟨MaxRoutePlanner.galaxy_of c8wLoader 1, 1, [1], none, none⟩,
        ⟨MaxRoutePlanner.galaxy_of c8wLoader 1, 1, [1], none, none⟩],
        [1, 1], [MaxRoutePlanner.galaxy_of c8wLoader 1],
        c8wBurro.vida_restante, c8wBurro.energia, c8wBurro.pasto_kg,
        c8wBurro.edad_actual, c8wBurro.vida_restante, []⟩, c8wBurro) :=
  C8_zero_lifespan_plan c8wLoader 1 c8wBurro [] (fun _ => 0) 5
    (by with_unfolding_all rfl) (by with_unfolding_all rfl)
    (Or.inl (by with_unfolding_all rfl)) (by norm_num)

/-!
## C2: agreement of the two shortest-path engines

Walk-based characterisation of shortest distances: both engines are shown
to produce, for every pair of known nodes, a value that is (a) the cost of
some walk between them (or `⊤`), and (b) a lower bound on the cost of every
walk between them.  Two values with both properties are equal.
-/
namespace Chains

/-- The total weight of a list of edges. -/
def cost (l : List BFEdge) : ℚ := (l.map fun e => e.2.2).sum

/-- `IsChain E u l v`: `l` is a walk from `u` to `v` whose edges all come
from the edge list `E`, each edge starting where the previous one ended. -/
def IsChain (E : List BFEdge) : ℕ → List BFEdge → ℕ → Prop
  | u, [], v => u = v
  | u, e :: l, v => e ∈ E ∧ e.1 = u ∧ IsChain E e.2.1 l v

/-- The intermediate vertices of a walk: the targets of all edges but the
last. -/
def inners : List BFEdge → List ℕ
  | [] => []
  | [_] => []
  | e :: f :: t => e.2.1 :: inners (f :: t)

theorem cost_nil : cost [] = 0 := rfl

theorem cost_cons (e : BFEdge) (l : List BFEdge) : cost (e :: l) = e.2.2 + cost l := by
  simp [cost]

theorem cost_append (l1 l2 : List BFEdge) : cost (l1 ++ l2) = cost l1 + cost l2 := by
  simp [cost]

theorem IsChain.append {E : List BFEdge} :
    ∀ {u : ℕ} (l1 : List BFEdge) {m v : ℕ} (l2 : List BFEdge),
      IsChain E u l1 m → IsChain E m l2 v → IsChain E u (l1 ++ l2) v
  | u, [], m, v, l2, h1, h2 => by
    rw [show u = m from h1]
    exact h2
  | u, e :: l1, m, v, l2, h1, h2 =>
    ⟨h1.1, h1.2.1, IsChain.append l1 l2 h1.2.2 h2⟩

theorem IsChain.snoc {E : List BFEdge} {u : ℕ} {l : List BFEdge} (e : BFEdge)
    (h : IsChain E u l e.1) (he : e ∈ E) : IsChain E u (l ++ [e]) e.2.1 :=
  IsChain.append l [e] h ⟨he, rfl, rfl⟩

theorem chain_cost_nonneg {E : List BFEdge} (hw : ∀ e ∈ E, 0 ≤ e.2.2) :
    ∀ {u : ℕ} (l : List BFEdge) {v : ℕ}, IsChain E u l v → 0 ≤ cost l
  | _, [], _, _ => le_refl 0
  | u, e :: l, v, h => by
    rw [cost_cons]
    have h1 := hw e h.1
    have h2 := chain_cost_nonneg hw l h.2.2
    linarith

/-- Every intermediate vertex of a chain is the target of one of its edges
(hence a known node when all edge targets are known nodes). -/
theorem chain_inners_target :
    ∀ (l : List BFEdge) (x : ℕ), x ∈ inners l → ∃ e, e ∈ l ∧ e.2.1 = x
  | [], x, hx => absurd hx (List.not_mem_nil x)
  | [e], x, hx => absurd hx (List.not_mem_nil x)
  | e :: f :: t, x, hx => by
    rw [show inners (e :: f :: t) = e.2.1 :: inners (f :: t) from rfl] at hx
    rcases List.mem_cons.mp hx with rfl | hx'
    · exact ⟨e, List.mem_cons_self _ _, rfl⟩
    · obtain ⟨e', he', hx''⟩ := chain_inners_target (f :: t) x hx'
      exact ⟨e', List.mem_cons_of_mem _ he', hx''⟩

/-- All edges of a chain belong to the ambient edge list. -/
theorem chain_edges_mem {E : List BFEdge} :
    ∀ {u : ℕ} (l : List BFEdge) {v : ℕ}, IsChain E u l v → ∀ e ∈ l, e ∈ E
  | _, [], _, _, e, he => absurd he (List.not_mem_nil e)
  | u, f :: l, v, h, e, he => by
    rcases List.mem_cons.mp he with rfl | he'
    · exact h.1
    · exact chain_edges_mem l h.2.2 e he'

/-- Splitting a chain at an intermediate vertex: both halves are nonempty
chains whose intermediate vertices all were intermediate in the original. -/
theorem chain_split {E : List BFEdge} :
    ∀ {u : ℕ} (l : List BFEdge) {v : ℕ} (x : ℕ),
      IsChain E u l v → x ∈ inners l →
      ∃ l1 l2, l1 ≠ [] ∧ l2 ≠ [] ∧ l = l1 ++ l2 ∧
        IsChain E u l1 x ∧ IsChain E x l2 v ∧
        (∀ y ∈ inners l1, y ∈ inners l) ∧ (∀ y ∈ inners l2, y ∈ inners l)
  | u, [], v, x, _, hx => absurd hx (List.not_mem_nil x)
  | u, [e], v, x, _, hx => absurd hx (List.not_mem_nil x)
  | u, e :: f :: t, v, x, h, hx => by
    rw [show inners (e :: f :: t) = e.2.1 :: inners (f :: t) from rfl] at hx
    rcases List.mem_cons.mp hx with rfl | hx'
    · refine ⟨[e], f :: t, by simp, by simp, rfl, ⟨h.1, h.2.1, rfl⟩, h.2.2, ?_, ?_⟩
      · intro y hy
        exact absurd hy (List.not_mem_nil y)
      · intro y hy
        exact List.mem_cons_of_mem _ hy
    · obtain ⟨l1, l2, h1ne, h2ne, heq, hc1, hc2, hi1, hi2⟩ :=
        chain_split (f :: t) x h.2.2 hx'
      refine ⟨e :: l1, l2, by simp, h2ne, by rw [List.cons_append, heq],
        ⟨h.1, h.2.1, hc1⟩, hc2, ?_, ?_⟩
      · intro y hy
        obtain ⟨g, l1', rfl⟩ : ∃ g l1', l1 = g :: l1' :=
          List.exists_cons_of_ne_nil h1ne
        rw [show inners (e :: g :: l1') = e.2.1 :: inners (g :: l1') from rfl] at hy
        rcases List.mem_cons.mp hy with rfl | hy'
        · exact List.mem_cons_self _ _
        · exact List.mem_cons_of_mem _ (hi1 y hy')
      · intro y hy
        exact List.mem_cons_of_mem _ (hi2 y hy)

end Chains

namespace BellmanFord

/-- A single relaxation attempt never increases any distance. -/
theorem relaxEdge_dist_le (s : BFState × Bool) (e : BFEdge) (x : ℕ) :
    (relaxEdge s e).1.dist x ≤ s.1.dist x := by
  obtain ⟨st, ch⟩ := s
  obtain ⟨u, v, w⟩ := e
  unfold relaxEdge
  dsimp only
  split
  · rename_i h
    dsimp only
    by_cases hx : x = v
    · subst hx
      rw [Function.update_same]
      exact le_of_lt h.2
    · rw [Function.update_noteq hx]
  · rfl

/-- A full pass never increases any distance. -/
theorem relaxPass_dist_le (E : List BFEdge) (st : BFState) (x : ℕ) :
    (relaxPass E st).1.dist x ≤ st.dist x := by
  unfold relaxPass
  have := foldlPreserveMem relaxEdge (fun s => s.1.dist x ≤ st.dist x) E (st, false)
    (fun s' e _ hs => le_trans (relaxEdge_dist_le s' e x) hs) (le_refl _)
  exact this

/-- The pass loop never increases any distance. -/
theorem bfLoop_dist_le (E : List BFEdge) :
    ∀ (fuel : ℕ) (st : BFState) (x : ℕ), (bfLoop E fuel st).dist x ≤ st.dist x
  | 0, st, x => le_refl _
  | fuel + 1, st, x => by
    rw [bfLoop]
    dsimp only
    split
    · exact le_trans (bfLoop_dist_le E fuel _ x) (relaxPass_dist_le E st x)
    · exact relaxPass_dist_le E st x

/-- Every finite distance in the state is the cost of some chain from the
origin. -/
def Attained (E : List BFEdge) (o : ℕ) (st : BFState) : Prop :=
  ∀ (x : ℕ) (c : ℚ), st.dist x = (c : Cost) →
    ∃ l, Chains.IsChain E o l x ∧ Chains.cost l = c

theorem relaxEdge_attained {E : List BFEdge} {o : ℕ} (s : BFState × Bool) (e : BFEdge)
    (he : e ∈ E) (h : Attained E o s.1) : Attained E o (relaxEdge s e).1 := by
  obtain ⟨st, ch⟩ := s
  obtain ⟨u, v, w⟩ := e
  unfold relaxEdge
  dsimp only
  split
  · rename_i hcond
    intro x c hx
    dsimp only at hx
    by_cases hxv : x = v
    · subst hxv
      rw [Function.update_same] at hx
      obtain ⟨cu, hcu⟩ : ∃ cu : ℚ, st.dist u = (cu : Cost) := by
        rcases Option.ne_none_iff_exists'.mp hcond.1 with ⟨cu, hcu⟩
        exact ⟨cu, hcu⟩
      rw [hcu, ← WithTop.coe_add, WithTop.coe_eq_coe] at hx
      obtain ⟨lu, hlu, hcostu⟩ := h u cu hcu
      refine ⟨lu ++ [(u, x, w)], Chains.IsChain.snoc (u, x, w) hlu he, ?_⟩
      rw [Chains.cost_append, hcostu, ← hx]
      simp [Chains.cost]
    · rw [Function.update_noteq hxv] at hx
      exact h x c hx
  · exact h

theorem relaxPass_attained {E : List BFEdge} {o : ℕ} (st : BFState)
    (h : Attained E o st) : Attained E o (relaxPass E st).1 := by
  unfold relaxPass
  exact foldlPreserveMem relaxEdge (fun s => Attained E o s.1) E (st, false)
    (fun s' e he hs => relaxEdge_attained s' e he hs) h

theorem bfLoop_attained {E : List BFEdge} {o : ℕ} :
    ∀ (fuel : ℕ) (st : BFState), Attained E o st → Attained E o (bfLoop E fuel st)
  | 0, st, h => h
  | fuel + 1, st, h => by
    rw [bfLoop]
    dsimp only
    split
    · exact bfLoop_attained fuel _ (relaxPass_attained st h)
    · exact relaxPass_attained st h

/-- A passed negative-cycle check is exactly edge-wise stability. -/
theorem negCheck_stable {E : List BFEdge} {st : BFState}
    (h : negCheck E st = false) :
    ∀ e ∈ E, st.dist e.2.1 ≤ st.dist e.1 + (e.2.2 : Cost) := by
  intro e he
  unfold negCheck at h
  rw [List.any_eq_false] at h
  have he' := h e he
  by_cases htop : st.dist e.1 = ⊤
  · rw [htop, top_add]
    exact le_top
  · by_contra hlt
    rw [not_le] at hlt
    exact he' (by simp [htop, hlt])

/-- In a stable state every chain bounds the distance of its endpoint from
the distance of its start. -/
theorem stable_chain_bound {E : List BFEdge} {st : BFState}
    (hstab : ∀ e ∈ E, st.dist e.2.1 ≤ st.dist e.1 + (e.2.2 : Cost)) :
    ∀ (u : ℕ) (l : List BFEdge) (v : ℕ), Chains.IsChain E u l v →
      st.dist v ≤ st.dist u + (Chains.cost l : Cost)
  | u, [], v, h => by
    rw [show u = v from h, Chains.cost_nil]
    simp
  | u, e :: l, v, h => by
    have hstep : st.dist e.2.1 ≤ st.dist u + (e.2.2 : Cost) := by
      rw [← h.2.1]
      exact hstab e h.1
    have hrest := stable_chain_bound hstab e.2.1 l v h.2.2
    calc st.dist v ≤ st.dist e.2.1 + (Chains.cost l : Cost) := hrest
    _ ≤ (st.dist u + (e.2.2 : Cost)) + (Chains.cost l : Cost) :=
        add_le_add_right hstep _
    _ = st.dist u + (Chains.cost (e :: l) : Cost) := by
        rw [Chains.cost_cons, WithTop.coe_add, add_assoc]

end BellmanFord

namespace FloydWarshall

theorem fwIndexOf_lt : ∀ (ns : List ℕ) (x i : ℕ), fwIndexOf ns x = some i → i < ns.length
  | [], _, _, h => Option.noConfusion h
  | y :: ys, x, i, h => by
    cases hrec : fwIndexOf ys x with
    | some i' =>
      replace h : some (i' + 1) = some i := by rw [← h, fwIndexOf, hrec]
      injection h with h'
      subst h'
      exact Nat.succ_lt_succ (fwIndexOf_lt ys x i' hrec)
    | none =>
      replace h : (if y = x then some 0 else none : Option ℕ) = some i := by
        rw [← h, fwIndexOf, hrec]
      by_cases hyx : y = x
      · rw [if_pos hyx] at h
        injection h with h'
        subst h'
        simp
      · rw [if_neg hyx] at h
        exact Option.noConfusion h

theorem fwIndexOf_getD : ∀ (ns : List ℕ) (x i : ℕ), fwIndexOf ns x = some i →
    ns.getD i 0 = x
  | [], _, _, h => Option.noConfusion h
  | y :: ys, x, i, h => by
    cases hrec : fwIndexOf ys x with
    | some i' =>
      replace h : some (i' + 1) = some i := by rw [← h, fwIndexOf, hrec]
      injection h with h'
      subst h'
      exact fwIndexOf_getD ys x i' hrec
    | none =>
      replace h : (if y = x then some 0 else none : Option ℕ) = some i := by
        rw [← h, fwIndexOf, hrec]
      by_cases hyx : y = x
      · rw [if_pos hyx] at h
        injection h with h'
        subst h'
        simpa using hyx
      · rw [if_neg hyx] at h
        exact Option.noConfusion h

theorem fwIndexOf_eq_none : ∀ (ns : List ℕ) (x : ℕ), x ∉ ns → fwIndexOf ns x = none
  | [], _, _ => rfl
  | y :: ys, x, hx => by
    have hrec := fwIndexOf_eq_none ys x (fun h => hx (List.mem_cons_of_mem _ h))
    have hne : y ≠ x := fun h => hx (h ▸ List.mem_cons_self _ _)
    rw [fwIndexOf, hrec]
    exact if_neg hne

theorem fwIndexOf_isSome_of_mem : ∀ (ns : List ℕ) (x : ℕ), x ∈ ns →
    ∃ i, fwIndexOf ns x = some i
  | [], x, hx => absurd hx (List.not_mem_nil x)
  | y :: ys, x, hx => by
    cases hrec : fwIndexOf ys x with
    | some i' =>
      refine ⟨i' + 1, ?_⟩
      rw [fwIndexOf, hrec]
    | none =>
      rcases List.mem_cons.mp hx with rfl | hx'
      · refine ⟨0, ?_⟩
        rw [fwIndexOf, hrec]
        exact if_pos rfl
      · obtain ⟨i, hi⟩ := fwIndexOf_isSome_of_mem ys x hx'
        rw [hi] at hrec
        exact absurd hrec (Option.noConfusion)

theorem fwIndexOf_getD_self : ∀ (ns : List ℕ), ns.Nodup → ∀ (i : ℕ), i < ns.length →
    fwIndexOf ns (ns.getD i 0) = some i
  | [], _, i, hi => absurd hi (by simp)
  | y :: ys, hnd, 0, _ => by
    rw [List.getD_cons_zero, fwIndexOf,
      fwIndexOf_eq_none ys y (List.nodup_cons.mp hnd).1]
    exact if_pos rfl
  | y :: ys, hnd, i + 1, hi => by
    rw [List.getD_cons_succ, fwIndexOf,
      fwIndexOf_getD_self ys (List.nodup_cons.mp hnd).2 i (by simpa using hi)]

/-- With distinct node ids the positional reads are injective. -/
theorem getD_inj {ns : List ℕ} (hnd : ns.Nodup) {i j : ℕ} (hi : i < ns.length)
    (hj : j < ns.length) (h : ns.getD i 0 = ns.getD j 0) : i = j := by
  have h1 := fwIndexOf_getD_self ns hnd i hi
  have h2 := fwIndexOf_getD_self ns hnd j hj
  rw [h] at h1
  rw [h1] at h2
  injection h2

theorem mem_getD (ns : List ℕ) (x : ℕ) (hx : x ∈ ns) :
    ∃ i, i < ns.length ∧ ns.getD i 0 = x := by
  obtain ⟨i, hi⟩ := fwIndexOf_isSome_of_mem ns x hx
  exact ⟨i, fwIndexOf_lt ns x i hi, fwIndexOf_getD ns x i hi⟩

theorem upd2_same {α : Type _} (f : ℕ → ℕ → α) (i j : ℕ) (a : α) :
    upd2 f i j a i j = a := by
  unfold upd2
  rw [Function.update_same, Function.update_same]

theorem upd2_ne {α : Type _} (f : ℕ → ℕ → α) (i j : ℕ) (a : α) {x y : ℕ}
    (h : ¬(x = i ∧ y = j)) : upd2 f i j a x y = f x y := by
  unfold upd2
  by_cases hx : x = i
  · subst hx
    have hy : y ≠ j := fun hy => h ⟨rfl, hy⟩
    rw [Function.update_same, Function.update_noteq hy]
  · rw [Function.update_noteq hx]

end FloydWarshall

namespace FloydWarshall

/-- Folding a function that fixes the state leaves it unchanged. -/
theorem foldlFix {α σ : Type _} (f : σ → α → σ) (s : σ) (h : ∀ a, f s a = s) :
    ∀ l : List α, l.foldl f s = s
  | [] => rfl
  | a :: l => by rw [List.foldl_cons, h a, foldlFix f s h l]

theorem fwStepJ_le (k i : ℕ) (dik : Cost) (M : FWMat) (j x y : ℕ) :
    (fwStepJ k i dik M j).d x y ≤ M.d x y := by
  unfold fwStepJ
  dsimp only
  split
  · rename_i hlt
    dsimp only
    by_cases hxy : x = i ∧ y = j
    · obtain ⟨rfl, rfl⟩ := hxy
      rw [upd2_same]
      exact le_of_lt hlt
    · rw [upd2_ne _ _ _ _ hxy]
  · exact le_refl _

theorem fwStepJ_ne (k i : ℕ) (dik : Cost) (M : FWMat) (j x y : ℕ)
    (h : ¬(x = i ∧ y = j)) : (fwStepJ k i dik M j).d x y = M.d x y := by
  unfold fwStepJ
  dsimp only
  split
  · exact upd2_ne _ _ _ _ h
  · rfl

theorem stepsJ_le (k i : ℕ) (dik : Cost) :
    ∀ (l : List ℕ) (M : FWMat) (x y : ℕ),
      (l.foldl (fwStepJ k i dik) M).d x y ≤ M.d x y
  | [], M, x, y => le_refl _
  | j :: l, M, x, y => by
    rw [List.foldl_cons]
    exact le_trans (stepsJ_le k i dik l _ x y) (fwStepJ_le k i dik M j x y)

theorem stepsJ_off_row (k i : ℕ) (dik : Cost) :
    ∀ (l : List ℕ) (M : FWMat) (x y : ℕ), x ≠ i →
      (l.foldl (fwStepJ k i dik) M).d x y = M.d x y
  | [], M, x, y, _ => rfl
  | j :: l, M, x, y, hx => by
    rw [List.foldl_cons, stepsJ_off_row k i dik l _ x y hx,
      fwStepJ_ne k i dik M j x y (fun hc => hx hc.1)]

theorem fwRowI_le (n k : ℕ) (M : FWMat) (i x y : ℕ) :
    (fwRowI n k M i).d x y ≤ M.d x y := by
  unfold fwRowI
  dsimp only
  split
  · exact le_refl _
  · exact stepsJ_le k i (M.d i k) (List.range n) M x y

theorem fwRowI_off_row (n k : ℕ) (M : FWMat) (i x y : ℕ) (hx : x ≠ i) :
    (fwRowI n k M i).d x y = M.d x y := by
  unfold fwRowI
  dsimp only
  split
  · rfl
  · exact stepsJ_off_row k i (M.d i k) (List.range n) M x y hx

/-- With a zero diagonal entry at `k`, processing row `k` is a no-op. -/
theorem fwRowI_self (n k : ℕ) (M : FWMat) (hk : M.d k k = 0) :
    fwRowI n k M k = M := by
  unfold fwRowI
  dsimp only
  rw [hk]
  rw [if_neg (by simp : ¬((0 : Cost) = ⊤))]
  refine foldlFix _ _ (fun j => ?_) (List.range n)
  unfold fwStepJ
  dsimp only
  rw [zero_add]
  rw [if_neg (lt_irrefl (M.d k j))]

/-- During its own row, the hoisted `dist[i][k]` never changes: the only
column-`k` relaxation compares the entry with itself. -/
theorem stepsJ_col_k (k i : ℕ) (dik : Cost) (hik : i ≠ k) :
    ∀ (l : List ℕ) (M : FWMat), M.d k k = 0 → M.d i k = dik →
      (l.foldl (fwStepJ k i dik) M).d i k = dik
  | [], M, _, hinv => hinv
  | j :: l, M, hkk, hinv => by
    rw [List.foldl_cons]
    by_cases hjk : j = k
    · have hstep : fwStepJ k i dik M j = M := by
        unfold fwStepJ
        dsimp only
        rw [hjk, hkk, add_zero, hinv, if_neg (lt_irrefl dik)]
      rw [hstep]
      exact stepsJ_col_k k i dik hik l M hkk hinv
    · refine stepsJ_col_k k i dik hik l _ ?_ ?_
      · rw [fwStepJ_ne k i dik M j k k (fun hc => hik hc.1.symm)]
        exact hkk
      · rw [fwStepJ_ne k i dik M j i k (fun hc => hjk hc.2.symm)]
        exact hinv

end FloydWarshall

namespace FloydWarshall

/-- With a zero diagonal at `k`, no row pass of round `k` changes
column `k`. -/
theorem fwRowI_col (n k : ℕ) (M : FWMat) (i : ℕ) (hk : M.d k k = 0) (x : ℕ) :
    (fwRowI n k M i).d x k = M.d x k := by
  by_cases hx : x = i
  · subst hx
    by_cases hik : x = k
    · subst hik
      rw [fwRowI_self n x M hk]
    · unfold fwRowI
      dsimp only
      split
      · rfl
      · exact stepsJ_col_k k x (M.d x k) hik (List.range n) M hk rfl
  · exact fwRowI_off_row n k M i x k hx

/-- With a zero diagonal at `k`, row `k` survives any sequence of row
passes of round `k` unchanged. -/
theorem foldlRows_row_k (n k : ℕ) :
    ∀ (rows : List ℕ) (A : FWMat), A.d k k = 0 →
      ∀ y, (rows.foldl (fwRowI n k) A).d k y = A.d k y
  | [], A, _, y => rfl
  | i :: rows, A, hk, y => by
    rw [List.foldl_cons]
    by_cases hik : i = k
    · subst hik
      rw [fwRowI_self n i A hk]
      exact foldlRows_row_k n i rows A hk y
    · have hoff : ∀ y', (fwRowI n k A i).d k y' = A.d k y' :=
        fun y' => fwRowI_off_row n k A i k y' (fun hc => hik hc.symm)
      rw [foldlRows_row_k n k rows _ (by rw [hoff k]; exact hk) y, hoff y]

/-- With a zero diagonal at `k`, column `k` survives any sequence of row
passes of round `k` unchanged. -/
theorem foldlRows_col_k (n k : ℕ) :
    ∀ (rows : List ℕ) (A : FWMat), A.d k k = 0 →
      ∀ x, (rows.foldl (fwRowI n k) A).d x k = A.d x k
  | [], A, _, x => rfl
  | i :: rows, A, hk, x => by
    rw [List.foldl_cons,
      foldlRows_col_k n k rows _ (by rw [fwRowI_col n k A i hk k]; exact hk) x,
      fwRowI_col n k A i hk x]

theorem foldlRows_le (n k : ℕ) :
    ∀ (rows : List ℕ) (A : FWMat) (x y : ℕ),
      (rows.foldl (fwRowI n k) A).d x y ≤ A.d x y
  | [], A, x, y => le_refl _
  | i :: rows, A, x, y => by
    rw [List.foldl_cons]
    exact le_trans (foldlRows_le n k rows _ x y) (fwRowI_le n k A i x y)

theorem fwRoundK_le (n : ℕ) (A : FWMat) (k x y : ℕ) :
    (fwRoundK n A k).d x y ≤ A.d x y :=
  foldlRows_le n k (List.range n) A x y

/-- The in-round triangle bound of one row pass, in terms of the values at
the start of the pass. -/
theorem fwRowI_key (n k i j : ℕ) (M : FWMat) (hk : M.d k k = 0) (hj : j < n) :
    (fwRowI n k M i).d i j ≤ M.d i k + M.d k j := by
  by_cases hik : i = k
  · subst hik
    rw [fwRowI_self n i M hk, hk, zero_add]
  · unfold fwRowI
    dsimp only
    split
    · rename_i htop
      rw [htop, top_add]
      exact le_top
    · obtain ⟨l1, l2, hsplit⟩ := List.append_of_mem (List.mem_range.mpr hj)
      rw [hsplit, List.foldl_append, List.foldl_cons]
      refine le_trans (stepsJ_le k i (M.d i k) l2 _ i j) ?_
      have hrowk : ∀ y, (l1.foldl (fwStepJ k i (M.d i k)) M).d k y = M.d k y :=
        fun y => stepsJ_off_row k i (M.d i k) l1 M k y (fun hc => hik hc.symm)
      set M1 := l1.foldl (fwStepJ k i (M.d i k)) M with hM1
      unfold fwStepJ
      dsimp only
      split
      · rename_i hlt
        dsimp only
        rw [upd2_same, hrowk j]
      · rename_i hnlt
        rw [not_lt] at hnlt
        rw [hrowk j] at hnlt
        exact hnlt


/-- The post-round triangle bound of one full round, in terms of the values
at the start of the round. -/
theorem fwRoundK_key (n k i j : ℕ) (A : FWMat) (hk : A.d k k = 0)
    (hi : i < n) (hj : j < n) :
    (fwRoundK n A k).d i j ≤ A.d i k + A.d k j := by
  obtain ⟨l1, l2, hsplit⟩ := List.append_of_mem (List.mem_range.mpr hi)
  unfold fwRoundK
  rw [hsplit, List.foldl_append, List.foldl_cons]
  refine le_trans (foldlRows_le n k l2 _ i j) ?_
  set Mi := l1.foldl (fwRowI n k) A with hMi
  have hkk : Mi.d k k = 0 := by
    rw [hMi, foldlRows_col_k n k l1 A hk k]
    exact hk
  have h1 : Mi.d i k = A.d i k := foldlRows_col_k n k l1 A hk i
  have h2 : Mi.d k j = A.d k j := foldlRows_row_k n k l1 A hk j
  calc (fwRowI n k Mi i).d i j ≤ Mi.d i k + Mi.d k j := fwRowI_key n k i j Mi hkk hj
  _ = A.d i k + A.d k j := by rw [h1, h2]

/-- Soundness: every finite entry is the cost of a chain between the
corresponding nodes. -/
def Sound (E : List BFEdge) (nodes : List ℕ) (M : FWMat) : Prop :=
  ∀ i j, i < nodes.length → j < nodes.length → ∀ c : ℚ, M.d i j = (c : Cost) →
    ∃ l, Chains.IsChain E (nodes.getD i 0) l (nodes.getD j 0) ∧ Chains.cost l = c

/-- The round invariant: every chain whose intermediate vertices come from
the first `k` node positions bounds the corresponding entry from above. -/
def Bounded (E : List BFEdge) (nodes : List ℕ) (k : ℕ) (M : FWMat) : Prop :=
  ∀ i j, i < nodes.length → j < nodes.length →
    ∀ l, Chains.IsChain E (nodes.getD i 0) l (nodes.getD j 0) →
      (∀ x ∈ Chains.inners l, ∃ t, t < k ∧ nodes.getD t 0 = x) →
      M.d i j ≤ (Chains.cost l : Cost)

theorem fwStepJ_sound {E : List BFEdge} {nodes : List ℕ} {k i : ℕ} {dik : Cost}
    {M : FWMat} (j : ℕ) (hkn : k < nodes.length)
    (hdik : ∀ c : ℚ, dik = (c : Cost) →
      ∃ l, Chains.IsChain E (nodes.getD i 0) l (nodes.getD k 0) ∧ Chains.cost l = c)
    (hs : Sound E nodes M) : Sound E nodes (fwStepJ k i dik M j) := by
  intro x y hx hy c hc
  unfold fwStepJ at hc
  dsimp only at hc
  split at hc
  · rename_i hlt
    dsimp only at hc
    by_cases hxy : x = i ∧ y = j
    · obtain ⟨rfl, rfl⟩ := hxy
      rw [upd2_same] at hc
      obtain ⟨c1, c2, h1, h2, h3⟩ := WithTop.add_eq_coe.mp hc
      obtain ⟨la, hla, hca⟩ := hdik c1 h1.symm
      obtain ⟨lb, hlb, hcb⟩ := hs k y hkn hy c2 h2.symm
      refine ⟨la ++ lb, Chains.IsChain.append la lb hla hlb, ?_⟩
      rw [Chains.cost_append, hca, hcb, h3]
    · rw [upd2_ne _ _ _ _ hxy] at hc
      exact hs x y hx hy c hc
  · exact hs x y hx hy c hc

theorem fwRowI_sound {E : List BFEdge} {nodes : List ℕ} {k i : ℕ}
    (hkn : k < nodes.length) (hin : i < nodes.length) {M : FWMat}
    (hs : Sound E nodes M) : Sound E nodes (fwRowI nodes.length k M i) := by
  unfold fwRowI
  dsimp only
  split
  · exact hs
  · exact foldlPreserveMem (fwStepJ k i (M.d i k)) (Sound E nodes)
      (List.range nodes.length) M
      (fun M' j _ hs' => fwStepJ_sound j hkn (fun c hc => hs i k hin hkn c hc) hs') hs

theorem fwRoundK_sound {E : List BFEdge} {nodes : List ℕ} {k : ℕ}
    (hkn : k < nodes.length) {M : FWMat} (hs : Sound E nodes M) :
    Sound E nodes (fwRoundK nodes.length M k) :=
  foldlPreserveMem (fwRowI nodes.length k) (Sound E nodes)
    (List.range nodes.length) M
    (fun _ i hi hs' => fwRowI_sound hkn (List.mem_range.mp hi) hs') hs

end FloydWarshall

namespace FloydWarshall

theorem fwLoadEdge_none1 (nodes : List ℕ) (M : FWMat) (e : BFEdge)
    (h1 : fwIndexOf nodes e.1 = none) : fwLoadEdge nodes M e = M := by
  unfold fwLoadEdge
  rw [h1]

theorem fwLoadEdge_none2 (nodes : List ℕ) (M : FWMat) (e : BFEdge)
    (h2 : fwIndexOf nodes e.2.1 = none) : fwLoadEdge nodes M e = M := by
  unfold fwLoadEdge
  cases h1 : fwIndexOf nodes e.1 with
  | none => rfl
  | some i => rw [h2]

theorem fwLoadEdge_some (nodes : List ℕ) (M : FWMat) (e : BFEdge) {i j : ℕ}
    (h1 : fwIndexOf nodes e.1 = some i) (h2 : fwIndexOf nodes e.2.1 = some j) :
    fwLoadEdge nodes M e =
      if (e.2.2 : Cost) < M.d i j then
        ⟨upd2 M.d i j (e.2.2 : Cost), upd2 M.nxt i j (some e.2.1)⟩
      else M := by
  unfold fwLoadEdge
  rw [h1, h2]

theorem fwLoadEdge_le (nodes : List ℕ) (M : FWMat) (e : BFEdge) (x y : ℕ) :
    (fwLoadEdge nodes M e).d x y ≤ M.d x y := by
  cases h1 : fwIndexOf nodes e.1 with
  | none => rw [fwLoadEdge_none1 nodes M e h1]
  | some i =>
    cases h2 : fwIndexOf nodes e.2.1 with
    | none => rw [fwLoadEdge_none2 nodes M e h2]
    | some j =>
      rw [fwLoadEdge_some nodes M e h1 h2]
      split
      · rename_i hlt
        dsimp only
        by_cases hxy : x = i ∧ y = j
        · obtain ⟨rfl, rfl⟩ := hxy
          rw [upd2_same]
          exact le_of_lt hlt
        · rw [upd2_ne _ _ _ _ hxy]
      · exact le_refl _

theorem loads_le (nodes : List ℕ) :
    ∀ (l : List BFEdge) (M : FWMat) (x y : ℕ),
      (l.foldl (fwLoadEdge nodes) M).d x y ≤ M.d x y
  | [], _, _, _ => le_refl _
  | e :: l, M, x, y => by
    rw [List.foldl_cons]
    exact le_trans (loads_le nodes l _ x y) (fwLoadEdge_le nodes M e x y)

theorem initMat_diag_le (nodes : List ℕ) (E : List BFEdge) {i : ℕ}
    (hi : i < nodes.length) : (initMat nodes E).d i i ≤ 0 := by
  unfold initMat
  dsimp only
  refine le_trans (loads_le nodes E _ i i) ?_
  dsimp only
  rw [if_pos ⟨hi, rfl⟩]

theorem initMat_edge_le (nodes : List ℕ) (E : List BFEdge) (e : BFEdge)
    (he : e ∈ E) {i j : ℕ} (h1 : fwIndexOf nodes e.1 = some i)
    (h2 : fwIndexOf nodes e.2.1 = some j) :
    (initMat nodes E).d i j ≤ (e.2.2 : Cost) := by
  unfold initMat
  dsimp only
  refine foldlReachMem (fwLoadEdge nodes) (fun M => M.d i j ≤ (e.2.2 : Cost)) E _ e he
    (fun M e' _ hM => le_trans (fwLoadEdge_le nodes M e' i j) hM) ?_
  intro M
  rw [fwLoadEdge_some nodes M e h1 h2]
  split
  · rename_i hlt
    dsimp only
    rw [upd2_same]
  · rename_i hnlt
    exact not_lt.mp hnlt

theorem initMat_sound (E : List BFEdge) (nodes : List ℕ) :
    Sound E nodes (initMat nodes E) := by
  unfold initMat
  dsimp only
  refine foldlPreserveMem (fwLoadEdge nodes) (Sound E nodes) E _ ?_ ?_
  · intro M e he hs x y hx hy c hc
    cases h1 : fwIndexOf nodes e.1 with
    | none =>
      rw [fwLoadEdge_none1 nodes M e h1] at hc
      exact hs x y hx hy c hc
    | some i =>
      cases h2 : fwIndexOf nodes e.2.1 with
      | none =>
        rw [fwLoadEdge_none2 nodes M e h2] at hc
        exact hs x y hx hy c hc
      | some j =>
        rw [fwLoadEdge_some nodes M e h1 h2] at hc
        split at hc
        · rename_i hlt
          dsimp only at hc
          by_cases hxy : x = i ∧ y = j
          · obtain ⟨rfl, rfl⟩ := hxy
            rw [upd2_same] at hc
            refine ⟨[e], ⟨he, ?_, ?_⟩, ?_⟩
            · exact (fwIndexOf_getD nodes e.1 x h1).symm ▸ rfl
            · exact (fwIndexOf_getD nodes e.2.1 y h2).symm ▸ rfl
            · rw [WithTop.coe_eq_coe] at hc
              simpa [Chains.cost] using hc
          · rw [upd2_ne _ _ _ _ hxy] at hc
            exact hs x y hx hy c hc
        · exact hs x y hx hy c hc
  · intro i j hi hj c hc
    dsimp only at hc
    split at hc
    · rename_i hij
      obtain ⟨-, rfl⟩ := hij
      refine ⟨[], rfl, ?_⟩
      have h0 : ((0 : ℚ) : Cost) = (c : Cost) := hc
      rw [Chains.cost_nil]
      exact WithTop.coe_eq_coe.mp h0
    · exact absurd hc (by simp)

end FloydWarshall

namespace FloydWarshall

theorem initMat_bounded (E : List BFEdge) (nodes : List ℕ) (hnd : nodes.Nodup) :
    Bounded E nodes 0 (initMat nodes E) := by
  intro i j hi hj l hl hinn
  match l, hl, hinn with
  | [], hl, _ =>
    obtain rfl : i = j := getD_inj hnd hi hj hl
    rw [Chains.cost_nil]
    exact initMat_diag_le nodes E hi
  | [e], hl, _ =>
    have h1 : fwIndexOf nodes e.1 = some i := by
      rw [hl.2.1]
      exact fwIndexOf_getD_self nodes hnd i hi
    have h2 : fwIndexOf nodes e.2.1 = some j := by
      rw [show e.2.1 = nodes.getD j 0 from hl.2.2]
      exact fwIndexOf_getD_self nodes hnd j hj
    have := initMat_edge_le nodes E e hl.1 h1 h2
    rw [show Chains.cost [e] = e.2.2 by simp [Chains.cost]]
    exact this
  | e :: f :: t, hl, hinn =>
    obtain ⟨s, hs, -⟩ := hinn e.2.1 (List.mem_cons_self _ _)
    exact absurd hs (Nat.not_lt_zero s)

theorem diag_zero {E : List BFEdge} {nodes : List ℕ} {k : ℕ}
    (hw : ∀ e ∈ E, 0 ≤ e.2.2) (hkn : k < nodes.length) {A : FWMat}
    (hs : Sound E nodes A) (hb : Bounded E nodes k A) : A.d k k = 0 := by
  have hle : A.d k k ≤ ((0 : ℚ) : Cost) := by
    have := hb k k hkn hkn [] rfl (fun x hx => absurd hx (List.not_mem_nil x))
    rw [Chains.cost_nil] at this
    exact this
  obtain ⟨c, hc⟩ : ∃ c : ℚ, A.d k k = (c : Cost) := by
    rcases Option.ne_none_iff_exists'.mp (fun htop : A.d k k = ⊤ => by
      rw [htop] at hle
      exact absurd hle (by simp)) with ⟨c, hc⟩
    exact ⟨c, hc⟩
  obtain ⟨l, hl, hcost⟩ := hs k k hkn hkn c hc
  have h0 : (0 : ℚ) ≤ c := hcost ▸ Chains.chain_cost_nonneg hw l hl
  have hle' : c ≤ 0 := by
    rw [hc] at hle
    exact_mod_cast hle
  rw [hc, le_antisymm hle' h0]
  rfl

theorem fwRoundK_bounded {E : List BFEdge} {nodes : List ℕ} (hnd : nodes.Nodup)
    {k : ℕ} (hkn : k < nodes.length) {A : FWMat}
    (hA : Bounded E nodes k A) (hkk : A.d k k = 0) :
    Bounded E nodes (k + 1) (fwRoundK nodes.length A k) := by
  have main : ∀ (m : ℕ) (l : List BFEdge) (i j : ℕ), l.length ≤ m →
      i < nodes.length → j < nodes.length →
      Chains.IsChain E (nodes.getD i 0) l (nodes.getD j 0) →
      (∀ x ∈ Chains.inners l, ∃ t, t < k + 1 ∧ nodes.getD t 0 = x) →
      (fwRoundK nodes.length A k).d i j ≤ (Chains.cost l : Cost) := by
    intro m
    induction m with
    | zero =>
      intro l i j hlen hi hj hl hinn
      obtain rfl : l = [] := List.length_eq_zero.mp (Nat.le_zero.mp hlen)
      obtain rfl : i = j := getD_inj hnd hi hj hl
      rw [Chains.cost_nil]
      refine le_trans (fwRoundK_le nodes.length A k i i) ?_
      have := hA i i hi hi [] rfl (fun x hx => absurd hx (List.not_mem_nil x))
      rw [Chains.cost_nil] at this
      exact this
    | succ m ih =>
      intro l i j hlen hi hj hl hinn
      by_cases hkin : nodes.getD k 0 ∈ Chains.inners l
      · obtain ⟨l1, l2, h1ne, h2ne, heq, hc1, hc2, hi1, hi2⟩ :=
          Chains.chain_split l _ hl hkin
        have hlen12 : l1.length + l2.length = l.length := by
          rw [heq, List.length_append]
        have hlen1 : l1.length ≤ m := by
          have h2pos : 0 < l2.length := List.length_pos.mpr h2ne
          omega
        have hlen2 : l2.length ≤ m := by
          have h1pos : 0 < l1.length := List.length_pos.mpr h1ne
          omega
        have hb1 := ih l1 i k hlen1 hi hkn hc1 (fun x hx => hinn x (hi1 x hx))
        have hb2 := ih l2 k j hlen2 hkn hj hc2 (fun x hx => hinn x (hi2 x hx))
        have hcol : (fwRoundK nodes.length A k).d i k = A.d i k :=
          foldlRows_col_k nodes.length k (List.range nodes.length) A hkk i
        have hrow : (fwRoundK nodes.length A k).d k j = A.d k j :=
          foldlRows_row_k nodes.length k (List.range nodes.length) A hkk j
        calc (fwRoundK nodes.length A k).d i j ≤ A.d i k + A.d k j :=
          fwRoundK_key nodes.length k i j A hkk hi hj
        _ ≤ (Chains.cost l1 : Cost) + (Chains.cost l2 : Cost) :=
          add_le_add (hcol ▸ hb1) (hrow ▸ hb2)
        _ = (Chains.cost l : Cost) := by
          rw [heq, Chains.cost_append, WithTop.coe_add]
      · refine le_trans (fwRoundK_le nodes.length A k i j) (hA i j hi hj l hl ?_)
        intro x hx
        obtain ⟨t, ht, hxt⟩ := hinn x hx
        rcases Nat.lt_succ_iff_lt_or_eq.mp ht with ht' | rfl
        · exact ⟨t, ht', hxt⟩
        · exact absurd (hxt ▸ hx) hkin
  intro i j hi hj l hl hinn
  exact main l.length l i j (le_refl _) hi hj hl hinn

theorem fw_loop_invariant (E : List BFEdge) (nodes : List ℕ) (hnd : nodes.Nodup)
    (hw : ∀ e ∈ E, 0 ≤ e.2.2) :
    ∀ k, k ≤ nodes.length →
      Sound E nodes ((List.range k).foldl (fwRoundK nodes.length) (initMat nodes E)) ∧
      Bounded E nodes k ((List.range k).foldl (fwRoundK nodes.length) (initMat nodes E))
  | 0, _ => ⟨initMat_sound E nodes, initMat_bounded E nodes hnd⟩
  | k + 1, hk => by
    obtain ⟨hs, hb⟩ := fw_loop_invariant E nodes hnd hw k (Nat.le_of_succ_le hk)
    have hkn : k < nodes.length := hk
    have hkk := diag_zero hw hkn hs hb
    rw [List.range_succ, List.foldl_append, List.foldl_cons, List.foldl_nil]
    exact ⟨fwRoundK_sound hkn hs, fwRoundK_bounded hnd hkn hb hkk⟩

end FloydWarshall

/-- **C2.** On a graph whose listed edges have non-negative weights and
known endpoints (and distinct node ids), whenever both engines return
normally, the single-source distances of `BellmanFord.run` agree node for
node with the all-pairs row read off through `FloydWarshall.distance`. -/
theorem C2_engines_agree (nodes : List ℕ) (edges : List BFEdge) (o v : ℕ)
    (hnodup : nodes.Nodup)
    (hend : ∀ e ∈ edges, e.1 ∈ nodes ∧ e.2.1 ∈ nodes)
    (hw : ∀ e ∈ edges, 0 ≤ e.2.2)
    (hv : v ∈ nodes)
    (d : ℕ → Cost) (p : ℕ → Option ℕ) (M : FloydWarshall.FWMat)
    (hbf : BellmanFord.run nodes edges o = .ok (d, p))
    (hfw : FloydWarshall.run nodes edges = .ok M) :
    d v = FloydWarshall.distance nodes M o v := by
  have ho : o ∈ nodes := by
    by_contra ho
    unfold BellmanFord.run at hbf
    rw [if_neg ho] at hbf
    exact Except.noConfusion hbf
  unfold BellmanFord.run at hbf
  rw [if_pos ho] at hbf
  dsimp only at hbf
  set st := BellmanFord.bfLoop edges (nodes.length - 1)
    ⟨fun n => if n = o then 0 else ⊤, fun _ => none⟩ with hst
  cases hneg : BellmanFord.negCheck edges st with
  | true =>
    rw [hneg, if_pos rfl] at hbf
    exact absurd hbf (fun h => Except.noConfusion h)
  | false =>
    rw [hneg, if_neg Bool.false_ne_true] at hbf
    injection hbf with h'
    rw [Prod.mk.injEq] at h'
    obtain ⟨hd, hp⟩ := h'
    have hatt0 : BellmanFord.Attained edges o
        ⟨fun n => if n = o then 0 else ⊤, fun _ => none⟩ := by
      intro x c hc
      dsimp only at hc
      by_cases hx : x = o
      · subst hx
        rw [if_pos rfl] at hc
        refine ⟨[], rfl, ?_⟩
        have h0 : ((0 : ℚ) : Cost) = (c : Cost) := hc
        rw [Chains.cost_nil]
        exact WithTop.coe_eq_coe.mp h0
      · rw [if_neg hx] at hc
        exact absurd hc (by simp)
    have hatt : BellmanFord.Attained edges o st :=
      BellmanFord.bfLoop_attained (nodes.length - 1) _ hatt0
    have hstab := BellmanFord.negCheck_stable hneg
    have hdisto : st.dist o ≤ 0 := by
      have := BellmanFord.bfLoop_dist_le edges (nodes.length - 1)
        ⟨fun n => if n = o then 0 else ⊤, fun _ => none⟩ o
      rw [← hst] at this
      simpa using this
    have hub : ∀ l, Chains.IsChain edges o l v → st.dist v ≤ (Chains.cost l : Cost) := by
      intro l hl
      refine le_trans (BellmanFord.stable_chain_bound hstab o l v hl) ?_
      calc st.dist o + (Chains.cost l : Cost) ≤ 0 + (Chains.cost l : Cost) :=
        add_le_add_right hdisto _
      _ = (Chains.cost l : Cost) := zero_add _
    have hfwM : M = (List.range nodes.length).foldl
        (FloydWarshall.fwRoundK nodes.length) (FloydWarshall.initMat nodes edges) := by
      unfold FloydWarshall.run at hfw
      dsimp only at hfw
      split at hfw
      · exact absurd hfw (fun h => Except.noConfusion h)
      · injection hfw with h'
        exact h'.symm
    obtain ⟨hSound, hBound⟩ :=
      FloydWarshall.fw_loop_invariant edges nodes hnodup hw nodes.length (le_refl _)
    rw [← hfwM] at hSound hBound
    obtain ⟨iS, hiS⟩ := FloydWarshall.fwIndexOf_isSome_of_mem nodes o ho
    obtain ⟨jV, hjV⟩ := FloydWarshall.fwIndexOf_isSome_of_mem nodes v hv
    have hiSlt := FloydWarshall.fwIndexOf_lt nodes o iS hiS
    have hjVlt := FloydWarshall.fwIndexOf_lt nodes v jV hjV
    have hndo : nodes.getD iS 0 = o := FloydWarshall.fwIndexOf_getD nodes o iS hiS
    have hndv : nodes.getD jV 0 = v := FloydWarshall.fwIndexOf_getD nodes v jV hjV
    have hdist : FloydWarshall.distance nodes M o v = M.d iS jV := by
      unfold FloydWarshall.distance
      rw [hiS, hjV]
    rw [← hd, hdist]
    apply le_antisymm
    · by_cases htop : M.d iS jV = ⊤
      · rw [htop]
        exact le_top
      · obtain ⟨c, hc⟩ := Option.ne_none_iff_exists'.mp htop
        obtain ⟨l, hl, hcost⟩ := hSound iS jV hiSlt hjVlt c hc
        rw [hc, ← hcost]
        rw [hndo, hndv] at hl
        exact hub l hl
    · by_cases htop : st.dist v = ⊤
      · rw [htop]
        exact le_top
      · obtain ⟨c, hc⟩ := Option.ne_none_iff_exists'.mp htop
        obtain ⟨l, hl, hcost⟩ := hatt v c hc
        rw [hc, ← hcost]
        refine hBound iS jV hiSlt hjVlt l ?_ ?_
        · rw [hndo, hndv]
          exact hl
        · intro x hx
          obtain ⟨e, hel, hex⟩ := Chains.chain_inners_target l x hx
          have hmem : x ∈ nodes :=
            hex ▸ (hend e (Chains.chain_edges_mem l hl e hel)).2
          exact FloydWarshall.mem_getD nodes x hmem

/-- Witness for C2 on the two-node graph `0 ↔ 1` with weight 2. -/
theorem C2_witness : ∃ (d : ℕ → Cost) (p : ℕ → Option ℕ) (M : FloydWarshall.FWMat),
    BellmanFord.run [0, 1] [(0, 1, (2 : ℚ)), (1, 0, 2)] 0 = .ok (d, p) ∧
    FloydWarshall.run [0, 1] [(0, 1, (2 : ℚ)), (1, 0, 2)] = .ok M ∧
    d 1 = FloydWarshall.distance [0, 1] M 0 1 := by
  have hbf : BellmanFord.run [0, 1] [(0, 1, (2 : ℚ)), (1, 0, 2)] 0 =
      .ok ((BellmanFord.bfLoop [(0, 1, (2 : ℚ)), (1, 0, 2)] 1
        ⟨fun n => if n = 0 then 0 else ⊤, fun _ => none⟩).dist,
        (BellmanFord.bfLoop [(0, 1, (2 : ℚ)), (1, 0, 2)] 1
        ⟨fun n => if n = 0 then 0 else ⊤, fun _ => none⟩).prev) := by
    with_unfolding_all rfl
  have hfw : FloydWarshall.run [0, 1] [(0, 1, (2 : ℚ)), (1, 0, 2)] =
      .ok ((List.range 2).foldl (FloydWarshall.fwRoundK 2)
        (FloydWarshall.initMat [0, 1] [(0, 1, (2 : ℚ)), (1, 0, 2)])) := by
    with_unfolding_all rfl
  refine ⟨_, _, _, hbf, hfw, ?_⟩
  refine C2_engines_agree [0, 1] [(0, 1, (2 : ℚ)), (1, 0, 2)] 0 1
    (by decide) ?_ ?_ (by decide) _ _ _ hbf hfw
  · intro e he
    rcases List.mem_cons.mp he with rfl | he
    · exact ⟨by decide, by decide⟩
    rcases List.mem_cons.mp he with rfl | he
    · exact ⟨by decide, by decide⟩
    exact absurd he (List.not_mem_nil _)
  · intro e he
    rcases List.mem_cons.mp he with rfl | he
    · norm_num
    rcases List.mem_cons.mp he with rfl | he
    · norm_num
    exact absurd he (List.not_mem_nil _)
